import Mathlib

/-!
Verification of the resume/document text normalization engine of the
talentsift backend (`src/modules/candidate/candidate.utils.ts`).

Strings are modelled as `List Char`.  Each JavaScript global regex
replacement `s.replace(/pat/g, rep)` is modelled as a left-to-right scan
(`runRepl`): at each position the scanner attempts to match the pattern
(a `try…` function returning the replacement text and the remainder after
the match); on success it emits the replacement and resumes after the
match, otherwise it emits one character and advances by one.  Every
pattern used by the source is deterministic after greedy matching (the
character classes of adjacent quantified atoms are disjoint), except the
e-mail pattern whose backtracking is worked out explicitly in
`tryEmail`.
-/

namespace TalentSift

/-- Convert a string literal to the character-list representation. -/
def str (s : String) : List Char := s.data

/-- The punctuation class `[.,;:!?]` of the source's spacing-repair regexes. -/
def isPunct (c : Char) : Bool :=
  c = '.' || c = ',' || c = ';' || c = ':' || c = '!' || c = '?'

/-- JavaScript's `\s` class (also the character set removed by
`String.prototype.trim`): tab, line feed, vertical tab, form feed,
carriage return, space, and the Unicode space separators. -/
def isJsWhitespace (c : Char) : Bool :=
  c = ' ' || c = '\t' || c = '\n' || c = '\r' || c = '\x0b' || c = '\x0c' ||
  c = '\u00A0' || c = '\u1680' || ('\u2000' ≤ c && c ≤ '\u200A') ||
  c = '\u2028' || c = '\u2029' || c = '\u202F' || c = '\u205F' ||
  c = '\u3000' || c = '\uFEFF'

/-- JavaScript's `\d` class: the ASCII digits. -/
def isAsciiDigit (c : Char) : Bool := '0' ≤ c && c ≤ '9'

/-- JavaScript's `\w` class: `[A-Za-z0-9_]`. -/
def isWordChar (c : Char) : Bool :=
  ('A' ≤ c && c ≤ 'Z') || ('a' ≤ c && c ≤ 'z') || isAsciiDigit c || c = '_'

/-- The class `[A-Z]`. -/
def isUpperAZ (c : Char) : Bool := 'A' ≤ c && c ≤ 'Z'

/-- The class `[a-z]`. -/
def isLowerAZ (c : Char) : Bool := 'a' ≤ c && c ≤ 'z'

/-- The class `[A-Za-z]`. -/
def isAlphaAZ (c : Char) : Bool := isUpperAZ c || isLowerAZ c

/-- The control characters removed by the artifact-cleaning step:
`[\x00-\x08\x0B-\x0C\x0E-\x1F\x7F]` (newline and tab are kept). -/
def isCtrlChar (c : Char) : Bool :=
  c.toNat ≤ 8 || c.toNat = 0x0b || c.toNat = 0x0c ||
  (0x0e ≤ c.toNat && c.toNat ≤ 0x1f) || c.toNat = 0x7f

/-- A matcher for a global regex replacement: given the text starting at the
current scan position, return `some (replacement, remainderAfterMatch)` when
the pattern matches at this position, `none` otherwise. -/
def Matcher := List Char → Option (List Char × List Char)

/-- A matcher consumes at least one character whenever it fires. -/
def Shrinks (f : Matcher) : Prop :=
  ∀ l p, f l = some p → p.2.length < l.length

/-- Fuelled scanner for a global replacement (the fuel makes the definition
structurally recursive so that concrete runs reduce in the kernel). -/
def runReplF (f : Matcher) : Nat → List Char → List Char
  | 0, l => l
  | _ + 1, [] => []
  | fuel + 1, c :: cs =>
    match f (c :: cs) with
    | some (rep, rest) => rep ++ runReplF f fuel rest
    | none => c :: runReplF f fuel cs

/-- JavaScript `String.replace(/pat/g, rep)` for the matcher `f`. -/
def runRepl (f : Matcher) (l : List Char) : List Char :=
  runReplF f l.length l

theorem runReplF_nil (f : Matcher) (n : Nat) : runReplF f n [] = [] := by
  cases n <;> rfl

theorem runReplF_congr (f : Matcher) (hf : Shrinks f) :
    ∀ (n : Nat) (m : Nat) (l : List Char), l.length ≤ n → l.length ≤ m →
      runReplF f n l = runReplF f m l := by
  intro n
  induction n with
  | zero =>
    intro m l hn _
    have : l = [] := List.length_eq_zero.mp (Nat.le_zero.mp hn)
    subst this
    rw [runReplF_nil, runReplF_nil]
  | succ n ih =>
    intro m l hn hm
    match l with
    | [] => rw [runReplF_nil, runReplF_nil]
    | c :: cs =>
      match m with
      | 0 => exact absurd hm (by simp)
      | m + 1 =>
        show (match f (c :: cs) with
              | some (rep, rest) => rep ++ runReplF f n rest
              | none => c :: runReplF f n cs) =
             (match f (c :: cs) with
              | some (rep, rest) => rep ++ runReplF f m rest
              | none => c :: runReplF f m cs)
        cases h : f (c :: cs) with
        | some p =>
          obtain ⟨rep, rest⟩ := p
          have hlt : rest.length < (c :: cs).length := hf _ _ h
          have h1 : rest.length ≤ n := by
            have := Nat.lt_of_lt_of_le hlt hn
            omega
          have h2 : rest.length ≤ m := by
            have := Nat.lt_of_lt_of_le hlt hm
            omega
          simp only [ih m rest h1 h2]
        | none =>
          have h1 : cs.length ≤ n := by
            simp only [List.length_cons] at hn
            omega
          have h2 : cs.length ≤ m := by
            simp only [List.length_cons] at hm
            omega
          simp only [ih m cs h1 h2]

theorem runRepl_nil (f : Matcher) : runRepl f [] = [] := rfl

/-- The defining equation of `runRepl` on a nonempty string. -/
theorem runRepl_cons (f : Matcher) (hf : Shrinks f) (c : Char) (cs : List Char) :
    runRepl f (c :: cs) =
      match f (c :: cs) with
      | some (rep, rest) => rep ++ runRepl f rest
      | none => c :: runRepl f cs := by
  show runReplF f (cs.length + 1) (c :: cs) = _
  show (match f (c :: cs) with
        | some (rep, rest) => rep ++ runReplF f cs.length rest
        | none => c :: runReplF f cs.length cs) = _
  cases h : f (c :: cs) with
  | some p =>
    obtain ⟨rep, rest⟩ := p
    have hlt : rest.length < cs.length + 1 := by
      have := hf _ _ h
      simpa using this
    simp only [runRepl, runReplF_congr f hf cs.length rest.length rest (by omega) (by omega)]
  | none =>
    simp only [runRepl]

/-! ### Suffix/length utilities for the matchers -/

theorem length_lt_cons_of_suffix {rest cs : List Char} (c : Char) (h : rest <:+ cs) :
    rest.length < (c :: cs).length := by
  have := h.length_le
  simp only [List.length_cons]
  omega

theorem suffix_of_dropWhile_eq_cons {q : Char → Bool} {l r : List Char} {x : Char}
    (h : l.dropWhile q = x :: r) : r <:+ l ∧ r.length < l.length := by
  have hs : (x :: r) <:+ l := h ▸ List.dropWhile_suffix q
  refine ⟨((List.suffix_cons x r).trans hs), ?_⟩
  have := hs.length_le
  simp only [List.length_cons] at this
  omega

theorem takeWhile_ne_nil_iff {q : Char → Bool} {l : List Char} :
    l.takeWhile q ≠ [] ↔ ∃ c cs, l = c :: cs ∧ q c = true := by
  constructor
  · intro h
    match l with
    | [] => exact absurd rfl h
    | c :: cs =>
      refine ⟨c, cs, rfl, ?_⟩
      by_contra hq
      have : q c = false := by
        cases hqc : q c
        · rfl
        · exact absurd hqc hq
      simp [List.takeWhile, this] at h
  · rintro ⟨c, cs, rfl, hq⟩
    simp [List.takeWhile, hq]

theorem dropWhile_length_lt_of_head {q : Char → Bool} {c : Char} {cs : List Char}
    (hq : q c = true) : ((c :: cs).dropWhile q).length < (c :: cs).length := by
  rw [List.dropWhile_cons, if_pos hq]
  have := (List.dropWhile_suffix q (l := cs)).length_le
  simp only [List.length_cons]
  omega

/-! ### The nine post-processing replacements (source lines 91–109)

Rule 1, `/\s+([.,;:!?])/g → '$1'`: delete whitespace before punctuation. -/

def tryPunctSpace : Matcher := fun l =>
  match l with
  | c :: _ =>
    if isJsWhitespace c then
      match l.dropWhile isJsWhitespace with
      | p :: rest => if isPunct p then some ([p], rest) else none
      | [] => none
    else none
  | [] => none

/-- Rule 2, `/([.,;:!?])\s*([.,;:!?])/g → '$1 $2'`: one space between
adjacent punctuation marks. -/
def tryPunctPair : Matcher := fun l =>
  match l with
  | p1 :: cs =>
    if isPunct p1 then
      match cs.dropWhile isJsWhitespace with
      | p2 :: rest => if isPunct p2 then some ([p1, ' ', p2], rest) else none
      | [] => none
    else none
  | [] => none

/-- Rule 3, `/\s*\|\s*/g → ' | '`: normalize spacing around pipes. -/
def tryPipe : Matcher := fun l =>
  match l.dropWhile isJsWhitespace with
  | x :: r =>
    if x = '|' then some ([' ', '|', ' '], r.dropWhile isJsWhitespace) else none
  | [] => none

/-- Rule 4, `/(\w)\s*-\s*(\w)/g → '$1-$2'`: tighten hyphens between word
characters. -/
def tryDash : Matcher := fun l =>
  match l with
  | w1 :: cs =>
    if isWordChar w1 then
      match cs.dropWhile isJsWhitespace with
      | x :: r2 =>
        if x = '-' then
          match r2.dropWhile isJsWhitespace with
          | w2 :: rr => if isWordChar w2 then some ([w1, '-', w2], rr) else none
          | [] => none
        else none
      | [] => none
    else none
  | [] => none

/-- Rule 5, `/(\d{4})\s*-\s*(\d{4})/g → '$1 - $2'`: space the hyphen of a
four-digit year range. -/
def tryYearRange : Matcher := fun l =>
  match l with
  | d1 :: d2 :: d3 :: d4 :: r1 =>
    if isAsciiDigit d1 && isAsciiDigit d2 && isAsciiDigit d3 && isAsciiDigit d4 then
      match r1.dropWhile isJsWhitespace with
      | x :: r2 =>
        if x = '-' then
          match r2.dropWhile isJsWhitespace with
          | e1 :: e2 :: e3 :: e4 :: rr =>
            if isAsciiDigit e1 && isAsciiDigit e2 && isAsciiDigit e3 && isAsciiDigit e4 then
              some ([d1, d2, d3, d4, ' ', '-', ' ', e1, e2, e3, e4], rr)
            else none
          | _ => none
        else none
      | [] => none
    else none
  | _ => none

/-- The `\S` class (complement of `\s`). -/
def isNonWs (c : Char) : Bool := !isJsWhitespace c

/-- Rule 6, `/(\S+)\s*@\s*(\S+)/g → '$1@$2'`, the backtracking cases in
which the literal `@` of the pattern is matched inside the leading
`\S`-run `S` (the greedy `(\S+)` gives characters back one at a time, so
the rightmost feasible `@` of `S` is used).  `A` is the input minus `S`,
`R` is `A` minus its leading whitespace. -/
def tryEmailInternal (S A R : List Char) : Option (List Char × List Char) :=
  if S.getLast? = some '@' ∧ 2 ≤ S.length ∧ R ≠ [] then
    some (S ++ R.takeWhile isNonWs, R.dropWhile isNonWs)
  else if '@' ∈ (S.drop 1).dropLast then
    some (S, A)
  else none

/-- Rule 6, `/(\S+)\s*@\s*(\S+)/g → '$1@$2'`: remove stray spaces around
`@`.  The first (most greedy) alternative keeps all of `S` as `$1` and
matches the literal `@` as the first character after the following
whitespace; otherwise the `@` is found inside `S` (`tryEmailInternal`). -/
def tryEmail : Matcher := fun l =>
  let S := l.takeWhile isNonWs
  let A := l.dropWhile isNonWs
  let R := A.dropWhile isJsWhitespace
  if S = [] then none
  else
    match R with
    | x :: r1 =>
      if x = '@' ∧ (r1.dropWhile isJsWhitespace).takeWhile isNonWs ≠ [] then
        some (S ++ '@' :: (r1.dropWhile isJsWhitespace).takeWhile isNonWs,
          (r1.dropWhile isJsWhitespace).dropWhile isNonWs)
      else tryEmailInternal S A R
    | [] => tryEmailInternal S A R

/-- The bullet glyphs rewritten by rule 7, `/[•▪▫◦‣⁃]/g` (the canonical
`●` is not in the class). -/
def isNonCanonicalBullet (c : Char) : Bool :=
  c = '•' || c = '▪' || c = '▫' || c = '◦' || c = '‣' || c = '⁃'

/-- Rule 7, `/[•▪▫◦‣⁃]/g → '●'`: normalize bullet glyphs. -/
def tryBulletNorm : Matcher := fun l =>
  match l with
  | c :: cs => if isNonCanonicalBullet c then some (['●'], cs) else none
  | [] => none

/-- Rule 8, `/\n{3,}/g → '\n\n'`: collapse runs of three or more newlines
(the greedy `{3,}` consumes the whole newline run). -/
def tryNewlines3 : Matcher := fun l =>
  match l with
  | a :: b :: c :: r =>
    if a = '\n' ∧ b = '\n' ∧ c = '\n' then
      some (['\n', '\n'], r.dropWhile (fun d => d = '\n'))
    else none
  | _ => none

/-- Common facts about a matcher: it emits a nonempty, newline-free
replacement, and resumes at a proper suffix of its input. -/
def TameRule (f : Matcher) : Prop :=
  ∀ l rep rest, f l = some (rep, rest) →
    rep ≠ [] ∧ '\n' ∉ rep ∧ rest <:+ l ∧ rest.length < l.length

theorem TameRule.shrinks {f : Matcher} (hf : TameRule f) : Shrinks f := by
  intro l pr h
  obtain ⟨rep, rest⟩ := pr
  exact (hf l rep rest h).2.2.2

theorem mem_takeWhile_sat {q : Char → Bool} {l : List Char} {c : Char}
    (h : c ∈ l.takeWhile q) : q c = true := by
  induction l with
  | nil => simp [List.takeWhile] at h
  | cons d ds ih =>
    rw [List.takeWhile] at h
    cases hq : q d with
    | false => rw [hq] at h; simp at h
    | true =>
      rw [hq] at h
      rcases List.mem_cons.mp h with h1 | h2
      · exact h1 ▸ hq
      · exact ih h2

theorem punct_ne_newline {c : Char} (h : isPunct c = true) : c ≠ '\n' := by
  intro he
  subst he
  simp [isPunct] at h

theorem word_ne_newline {c : Char} (h : isWordChar c = true) : c ≠ '\n' := by
  intro he
  subst he
  simp [isWordChar, isAsciiDigit] at h

theorem digit_ne_newline {c : Char} (h : isAsciiDigit c = true) : c ≠ '\n' := by
  intro he
  subst he
  simp [isAsciiDigit] at h

theorem nonWs_ne_newline {c : Char} (h : isNonWs c = true) : c ≠ '\n' := by
  intro he
  subst he
  simp [isNonWs, isJsWhitespace] at h

theorem tryPunctSpace_tame : TameRule tryPunctSpace := by
  intro l rep rest h
  match l with
  | [] => simp [tryPunctSpace] at h
  | c :: cs =>
    simp only [tryPunctSpace] at h
    by_cases hw : isJsWhitespace c = true
    · rw [if_pos hw] at h
      cases hd : (c :: cs).dropWhile isJsWhitespace with
      | nil => rw [hd] at h; exact absurd h (by simp)
      | cons p rest1 =>
        rw [hd] at h
        simp only at h
        by_cases hp : isPunct p = true
        · rw [if_pos hp] at h
          injection h with h'
          injection h' with h1 h2
          subst h1; subst h2
          have hsfx := suffix_of_dropWhile_eq_cons hd
          refine ⟨by simp, ?_, hsfx.1, hsfx.2⟩
          intro hm
          simp only [List.mem_singleton] at hm
          exact punct_ne_newline hp hm.symm
        · rw [if_neg hp] at h; exact absurd h (by simp)
    · rw [if_neg hw] at h; exact absurd h (by simp)

theorem tryPunctPair_tame : TameRule tryPunctPair := by
  intro l rep rest h
  match l with
  | [] => simp [tryPunctPair] at h
  | p1 :: cs =>
    simp only [tryPunctPair] at h
    by_cases hp1 : isPunct p1 = true
    · rw [if_pos hp1] at h
      cases hd : cs.dropWhile isJsWhitespace with
      | nil => rw [hd] at h; exact absurd h (by simp)
      | cons p2 rest1 =>
        rw [hd] at h
        simp only at h
        by_cases hp2 : isPunct p2 = true
        · rw [if_pos hp2] at h
          injection h with h'
          injection h' with h1 h2
          subst h1; subst h2
          have hsfx := suffix_of_dropWhile_eq_cons hd
          refine ⟨by simp, ?_, hsfx.1.trans (List.suffix_cons p1 cs),
            length_lt_cons_of_suffix p1 hsfx.1⟩
          intro hm
          simp only [List.mem_cons, List.not_mem_nil, or_false] at hm
          rcases hm with hm | hm | hm
          · exact punct_ne_newline hp1 hm.symm
          · exact absurd hm (by decide)
          · exact punct_ne_newline hp2 hm.symm
        · rw [if_neg hp2] at h; exact absurd h (by simp)
    · rw [if_neg hp1] at h; exact absurd h (by simp)

theorem tryPipe_tame : TameRule tryPipe := by
  intro l rep rest h
  unfold tryPipe at h
  cases hd : l.dropWhile isJsWhitespace with
  | nil => rw [hd] at h; exact absurd h (by simp)
  | cons x r =>
    rw [hd] at h
    simp only at h
    by_cases hx : x = '|'
    · rw [if_pos hx] at h
      injection h with h'
      injection h' with h1 h2
      subst h1; subst h2
      have hsfx := suffix_of_dropWhile_eq_cons hd
      refine ⟨by simp, by decide, (List.dropWhile_suffix _).trans hsfx.1, ?_⟩
      have := (List.dropWhile_suffix isJsWhitespace (l := r)).length_le
      have := hsfx.2
      omega
    · rw [if_neg hx] at h; exact absurd h (by simp)

theorem tryDash_tame : TameRule tryDash := by
  intro l rep rest h
  match l with
  | [] => simp [tryDash] at h
  | w1 :: cs =>
    simp only [tryDash] at h
    by_cases hw1 : isWordChar w1 = true
    · rw [if_pos hw1] at h
      cases hd1 : cs.dropWhile isJsWhitespace with
      | nil => rw [hd1] at h; exact absurd h (by simp)
      | cons x r2 =>
        rw [hd1] at h
        simp only at h
        by_cases hx : x = '-'
        · rw [if_pos hx] at h
          cases hd2 : r2.dropWhile isJsWhitespace with
          | nil => rw [hd2] at h; exact absurd h (by simp)
          | cons w2 rr =>
            rw [hd2] at h
            simp only at h
            by_cases hw2 : isWordChar w2 = true
            · rw [if_pos hw2] at h
              injection h with h'
              injection h' with h1 h2
              subst h1; subst h2
              have hs1 := suffix_of_dropWhile_eq_cons hd1
              have hs2 := suffix_of_dropWhile_eq_cons hd2
              have hchain := hs2.1.trans hs1.1
              refine ⟨by simp, ?_, hchain.trans (List.suffix_cons w1 cs),
                length_lt_cons_of_suffix w1 hchain⟩
              intro hm
              simp only [List.mem_cons, List.not_mem_nil, or_false] at hm
              rcases hm with hm | hm | hm
              · exact word_ne_newline hw1 hm.symm
              · exact absurd hm (by decide)
              · exact word_ne_newline hw2 hm.symm
            · rw [if_neg hw2] at h; exact absurd h (by simp)
        · rw [if_neg hx] at h; exact absurd h (by simp)
    · rw [if_neg hw1] at h; exact absurd h (by simp)

theorem tryYearRange_tame : TameRule tryYearRange := by
  intro l rep rest h
  match l with
  | [] => simp [tryYearRange] at h
  | [_] => simp [tryYearRange] at h
  | [_, _] => simp [tryYearRange] at h
  | [_, _, _] => simp [tryYearRange] at h
  | d1 :: d2 :: d3 :: d4 :: r1 =>
    simp only [tryYearRange] at h
    by_cases hd : (isAsciiDigit d1 && isAsciiDigit d2 && isAsciiDigit d3 && isAsciiDigit d4) = true
    · rw [if_pos hd] at h
      cases hd1 : r1.dropWhile isJsWhitespace with
      | nil => rw [hd1] at h; exact absurd h (by simp)
      | cons x r2 =>
        rw [hd1] at h
        simp only at h
        by_cases hx : x = '-'
        · rw [if_pos hx] at h
          rcases hd2 : r2.dropWhile isJsWhitespace with _ | ⟨e1, _ | ⟨e2, _ | ⟨e3, _ | ⟨e4, rr⟩⟩⟩⟩
          · rw [hd2] at h; exact absurd h (by simp)
          · rw [hd2] at h; exact absurd h (by simp)
          · rw [hd2] at h; exact absurd h (by simp)
          · rw [hd2] at h; exact absurd h (by simp)
          · rw [hd2] at h
            simp only at h
            by_cases he : (isAsciiDigit e1 && isAsciiDigit e2 && isAsciiDigit e3 && isAsciiDigit e4) = true
            · rw [if_pos he] at h
              injection h with h'
              injection h' with h1 h2
              subst h1; subst h2
              simp only [Bool.and_eq_true] at hd he
              have hs1 := suffix_of_dropWhile_eq_cons hd1
              have hs2 := suffix_of_dropWhile_eq_cons hd2
              have hrr3 : rr <:+ e4 :: rr := List.suffix_cons e4 rr
              have hrr2 := hrr3.trans (List.suffix_cons e3 (e4 :: rr))
              have hrr1 := hrr2.trans (List.suffix_cons e2 (e3 :: e4 :: rr))
              have hchain0 : rr <:+ r2.dropWhile isJsWhitespace := hd2 ▸ hrr1.trans
                (List.suffix_cons e1 (e2 :: e3 :: e4 :: rr))
              have hchain : rr <:+ r1 := (hchain0.trans (List.dropWhile_suffix _)).trans hs1.1
              constructor
              · simp
              constructor
              · intro hm
                simp only [List.mem_cons, List.not_mem_nil, or_false] at hm
                rcases hm with hm | hm | hm | hm | hm | hm | hm | hm | hm | hm | hm
                · exact digit_ne_newline hd.1.1.1 hm.symm
                · exact digit_ne_newline hd.1.1.2 hm.symm
                · exact digit_ne_newline hd.1.2 hm.symm
                · exact digit_ne_newline hd.2 hm.symm
                · exact absurd hm (by decide)
                · exact absurd hm (by decide)
                · exact absurd hm (by decide)
                · exact digit_ne_newline he.1.1.1 hm.symm
                · exact digit_ne_newline he.1.1.2 hm.symm
                · exact digit_ne_newline he.1.2 hm.symm
                · exact digit_ne_newline he.2 hm.symm
              constructor
              · exact (((hchain.trans (List.suffix_cons d4 r1)).trans
                  (List.suffix_cons d3 _)).trans (List.suffix_cons d2 _)).trans
                  (List.suffix_cons d1 _)
              · have := hchain.length_le
                simp only [List.length_cons]
                omega
            · rw [if_neg he] at h; exact absurd h (by simp)
        · rw [if_neg hx] at h; exact absurd h (by simp)
    · rw [if_neg hd] at h; exact absurd h (by simp)

theorem tryEmailInternal_cases {S A R rep rest : List Char}
    (h : tryEmailInternal S A R = some (rep, rest)) :
    (rep = S ++ R.takeWhile isNonWs ∧ rest = R.dropWhile isNonWs) ∨
      (rep = S ∧ rest = A) := by
  unfold tryEmailInternal at h
  split at h
  · left
    injection h with h'
    injection h' with h1 h2
    exact ⟨h1.symm, h2.symm⟩
  · split at h
    · right
      injection h with h'
      injection h' with h1 h2
      exact ⟨h1.symm, h2.symm⟩
    · exact absurd h (by simp)

theorem not_newline_mem_takeWhile_nonWs (l : List Char) : '\n' ∉ l.takeWhile isNonWs := by
  intro hm
  have := mem_takeWhile_sat hm
  simp [isNonWs, isJsWhitespace] at this

theorem tryEmail_tame : TameRule tryEmail := by
  intro l rep rest h
  unfold tryEmail at h
  simp only at h
  by_cases hS : l.takeWhile isNonWs = []
  · rw [if_pos hS] at h; exact absurd h (by simp)
  · rw [if_neg hS] at h
    obtain ⟨c, cs, rfl, hc⟩ := takeWhile_ne_nil_iff.mp hS
    have hAlen : ((c :: cs).dropWhile isNonWs).length < (c :: cs).length :=
      dropWhile_length_lt_of_head hc
    have hAsfx : (c :: cs).dropWhile isNonWs <:+ c :: cs := List.dropWhile_suffix _
    have hRsfx : ((c :: cs).dropWhile isNonWs).dropWhile isJsWhitespace <:+
        (c :: cs).dropWhile isNonWs := List.dropWhile_suffix _
    cases hR : ((c :: cs).dropWhile isNonWs).dropWhile isJsWhitespace with
    | nil =>
      rw [hR] at h
      simp only at h
      rcases tryEmailInternal_cases h with ⟨h1, h2⟩ | ⟨h1, h2⟩
      · subst h1; subst h2
        refine ⟨by simp [hS], ?_, (List.dropWhile_suffix _).trans (hR ▸ hRsfx.trans hAsfx), ?_⟩
        · intro hm
          rcases List.mem_append.mp hm with hm | hm
          · exact not_newline_mem_takeWhile_nonWs _ hm
          · exact not_newline_mem_takeWhile_nonWs _ hm
        · have h3 := (List.dropWhile_suffix isNonWs
            (l := ([] : List Char))).length_le
          simp only [List.length_nil] at h3 ⊢
          omega
      · subst h1; subst h2
        exact ⟨hS, not_newline_mem_takeWhile_nonWs _, hAsfx, hAlen⟩
    | cons x r1 =>
      rw [hR] at h
      simp only at h
      have hr1sfx : r1 <:+ c :: cs :=
        (List.suffix_cons x r1).trans (hR ▸ hRsfx.trans hAsfx)
      have hr1len : r1.length < (c :: cs).length := by
        have := (hR ▸ hRsfx.trans hAsfx : x :: r1 <:+ c :: cs).length_le
        simp only [List.length_cons] at this ⊢
        omega
      split at h
      · rename_i hcond
        injection h with h'
        injection h' with h1 h2
        subst h1; subst h2
        constructor
        · simp [hS]
        constructor
        · intro hm
          rcases List.mem_append.mp hm with hm | hm
          · exact not_newline_mem_takeWhile_nonWs _ hm
          · rcases List.mem_cons.mp hm with hm | hm
            · exact absurd hm (by decide)
            · exact not_newline_mem_takeWhile_nonWs _ hm
        constructor
        · exact ((List.dropWhile_suffix isNonWs).trans
            (List.dropWhile_suffix isJsWhitespace)).trans hr1sfx
        · have l1 := ((List.dropWhile_suffix isNonWs
            (l := r1.dropWhile isJsWhitespace)).trans
            (List.dropWhile_suffix isJsWhitespace)).length_le
          omega
      · rcases tryEmailInternal_cases h with ⟨h1, h2⟩ | ⟨h1, h2⟩
        · subst h1; subst h2
          constructor
          · simp [hS]
          constructor
          · intro hm
            rcases List.mem_append.mp hm with hm | hm
            · exact not_newline_mem_takeWhile_nonWs _ hm
            · exact not_newline_mem_takeWhile_nonWs _ hm
          constructor
          · exact (List.dropWhile_suffix isNonWs).trans (hR ▸ hRsfx.trans hAsfx)
          · have l1 := (List.dropWhile_suffix isNonWs (l := x :: r1)).length_le
            have l2 := (hR ▸ hRsfx : x :: r1 <:+ (c :: cs).dropWhile isNonWs).length_le
            omega
        · subst h1; subst h2
          exact ⟨hS, not_newline_mem_takeWhile_nonWs _, hAsfx, hAlen⟩

theorem tryBulletNorm_tame : TameRule tryBulletNorm := by
  intro l rep rest h
  match l with
  | [] => simp [tryBulletNorm] at h
  | c :: cs =>
    simp only [tryBulletNorm] at h
    by_cases hb : isNonCanonicalBullet c = true
    · rw [if_pos hb] at h
      injection h with h'
      injection h' with h1 h2
      subst h1; subst h2
      exact ⟨by simp, by decide, List.suffix_cons c cs, by simp⟩
    · rw [if_neg hb] at h; exact absurd h (by simp)

theorem tryNewlines3_props :
    ∀ l rep rest, tryNewlines3 l = some (rep, rest) →
      rep = ['\n', '\n'] ∧ rest <:+ l ∧ rest.length < l.length := by
  intro l rep rest h
  match l with
  | [] => simp [tryNewlines3] at h
  | [_] => simp [tryNewlines3] at h
  | [_, _] => simp [tryNewlines3] at h
  | a :: b :: c :: r =>
    simp only [tryNewlines3] at h
    split at h
    · injection h with h'
      injection h' with h1 h2
      subst h1; subst h2
      refine ⟨rfl, ?_, ?_⟩
      · exact (((List.dropWhile_suffix _).trans (List.suffix_cons c r)).trans
          (List.suffix_cons b _)).trans (List.suffix_cons a _)
      · have := (List.dropWhile_suffix (fun d => d = '\n') (l := r)).length_le
        simp only [List.length_cons]
        omega
    · exact absurd h (by simp)

theorem tryNewlines3_shrinks : Shrinks tryNewlines3 := by
  intro l pr h
  obtain ⟨rep, rest⟩ := pr
  exact (tryNewlines3_props l rep rest h).2.2

/-! ### The post-processing block (source lines 91–111) -/

/-- `.replace(/\s+([.,;:!?])/g, '$1')` -/
def replacePunctSpacing : List Char → List Char := runRepl tryPunctSpace

/-- `.replace(/([.,;:!?])\s*([.,;:!?])/g, '$1 $2')` -/
def replacePunctPair : List Char → List Char := runRepl tryPunctPair

/-- `.replace(/\s*\|\s*/g, ' | ')` -/
def replacePipes : List Char → List Char := runRepl tryPipe

/-- `.replace(/(\w)\s*-\s*(\w)/g, '$1-$2')` -/
def replaceDashTighten : List Char → List Char := runRepl tryDash

/-- `.replace(/(\d{4})\s*-\s*(\d{4})/g, '$1 - $2')` -/
def replaceYearRange : List Char → List Char := runRepl tryYearRange

/-- `.replace(/(\S+)\s*@\s*(\S+)/g, '$1@$2')` -/
def replaceEmail : List Char → List Char := runRepl tryEmail

/-- `.replace(/[•▪▫◦‣⁃]/g, '●')` -/
def replaceBulletNorm : List Char → List Char := runRepl tryBulletNorm

/-- `.replace(/\n{3,}/g, '\n\n')` -/
def replaceNewlines3 : List Char → List Char := runRepl tryNewlines3

/-- Remove trailing JavaScript whitespace. -/
def trimRight : List Char → List Char
  | [] => []
  | c :: cs =>
    match trimRight cs with
    | [] => if isJsWhitespace c then [] else [c]
    | r => c :: r

/-- `String.prototype.trim`. -/
def jsTrim (l : List Char) : List Char := trimRight (l.dropWhile isJsWhitespace)

/-- The post-processing and formatting block of `cleanExtractedText`
(source lines 91–111): spacing around punctuation, pipes and dashes,
e-mail restoration, bullet normalization, blank-line collapsing, final
trim. -/
def postProcess (l : List Char) : List Char :=
  jsTrim (replaceNewlines3 (replaceBulletNorm (replaceEmail (replaceYearRange
    (replaceDashTighten (replacePipes (replacePunctPair (replacePunctSpacing l))))))))

/-! ### Stage 1: initial artifact cleaning and normalization
(source lines 9–19) -/

/-- Matcher for `/--\s*\d+\s+of\s+\d+\s*--/g` (page separators such as
`-- 1 of 2 --`). -/
def tryPageSep : Matcher := fun l =>
  match l with
  | a :: b :: r1 =>
    if a = '-' ∧ b = '-' then
      let r2 := r1.dropWhile isJsWhitespace
      if (r2.takeWhile isAsciiDigit) = [] then none
      else
        let r3 := r2.dropWhile isAsciiDigit
        if (r3.takeWhile isJsWhitespace) = [] then none
        else
          match r3.dropWhile isJsWhitespace with
          | o :: f :: r4 =>
            if o = 'o' ∧ f = 'f' then
              if (r4.takeWhile isJsWhitespace) = [] then none
              else
                let r5 := r4.dropWhile isJsWhitespace
                if (r5.takeWhile isAsciiDigit) = [] then none
                else
                  match (r5.dropWhile isAsciiDigit).dropWhile isJsWhitespace with
                  | c :: d :: r6 =>
                    if c = '-' ∧ d = '-' then some ([], r6) else none
                  | _ => none
            else none
          | _ => none
    else none
  | _ => none

theorem tryPageSep_shrinks : Shrinks tryPageSep := by
  intro l pr h
  match l with
  | [] => simp [tryPageSep] at h
  | [_] => simp [tryPageSep] at h
  | a :: b :: r1 =>
    simp only [tryPageSep] at h
    split at h
    · split at h
      · exact absurd h (by simp)
      · split at h
        · exact absurd h (by simp)
        · cases h3 : (r1.dropWhile isJsWhitespace |>.dropWhile isAsciiDigit).dropWhile
              isJsWhitespace with
          | nil => rw [h3] at h; exact absurd h (by simp)
          | cons o t1 =>
            rw [h3] at h
            cases t1 with
            | nil => exact absurd h (by simp)
            | cons f r4 =>
              simp only at h
              split at h
              · split at h
                · exact absurd h (by simp)
                · split at h
                  · exact absurd h (by simp)
                  · cases h6 : ((r4.dropWhile isJsWhitespace).dropWhile
                        isAsciiDigit).dropWhile isJsWhitespace with
                    | nil => rw [h6] at h; exact absurd h (by simp)
                    | cons c t2 =>
                      rw [h6] at h
                      cases t2 with
                      | nil => exact absurd h (by simp)
                      | cons d r6 =>
                        simp only at h
                        split at h
                        · injection h with h'
                          subst h'
                          show r6.length < (a :: b :: r1).length
                          have s6 : c :: d :: r6 <:+ r4 :=
                            h6 ▸ (((List.dropWhile_suffix _).trans
                              (List.dropWhile_suffix _)).trans (List.dropWhile_suffix _))
                          have s4 : o :: f :: r4 <:+ r1 :=
                            h3 ▸ (((List.dropWhile_suffix _).trans
                              (List.dropWhile_suffix _)).trans (List.dropWhile_suffix _))
                          have l6 := s6.length_le
                          have l4 := s4.length_le
                          simp only [List.length_cons] at l6 l4 ⊢
                          omega
                        · exact absurd h (by simp)
              · exact absurd h (by simp)
    · exact absurd h (by simp)

/-- `/--\s*\d+\s+of\s+\d+\s*--/g → ''` (remove page separators). -/
def removePageSeparators : List Char → List Char := runRepl tryPageSep

/-- `/[\x00-\x08\x0B-\x0C\x0E-\x1F\x7F]/g → ''` (remove control
characters, keeping newlines and tabs). -/
def removeControlChars (l : List Char) : List Char :=
  l.filter (fun c => !isCtrlChar c)

/-- `/\r\n|\r/g → '\n'` (normalize line breaks). -/
def normalizeLineBreaks : List Char → List Char
  | [] => []
  | [c] => if c = '\r' then ['\n'] else [c]
  | c :: d :: ds =>
    if c = '\r' then
      if d = '\n' then '\n' :: normalizeLineBreaks ds
      else '\n' :: normalizeLineBreaks (d :: ds)
    else c :: normalizeLineBreaks (d :: ds)

/-- `/\t/g → ' '` (replace tabs with spaces). -/
def replaceTabs (l : List Char) : List Char :=
  l.map (fun c => if c = '\t' then ' ' else c)

/-- Matcher for `/[ ]{2,}/g → ' '` (collapse runs of two or more literal
spaces). -/
def trySpaceRun : Matcher := fun l =>
  match l with
  | a :: b :: r =>
    if a = ' ' ∧ b = ' ' then some ([' '], r.dropWhile (fun c => c = ' '))
    else none
  | _ => none

theorem trySpaceRun_shrinks : Shrinks trySpaceRun := by
  intro l pr h
  match l with
  | [] => simp [trySpaceRun] at h
  | [_] => simp [trySpaceRun] at h
  | a :: b :: r =>
    simp only [trySpaceRun] at h
    split at h
    · injection h with h'
      subst h'
      show (r.dropWhile (fun c => c = ' ')).length < (a :: b :: r).length
      have := (List.dropWhile_suffix (fun c => c = ' ') (l := r)).length_le
      simp only [List.length_cons]
      omega
    · exact absurd h (by simp)

/-- `/[ ]{2,}/g → ' '`. -/
def collapseSpaces : List Char → List Char := runRepl trySpaceRun

/-- Step 1 of `cleanExtractedText` (source lines 9–19): artifact cleaning
and whitespace normalization. -/
def initialClean (l : List Char) : List Char :=
  collapseSpaces (replaceTabs (normalizeLineBreaks
    (removeControlChars (removePageSeparators l))))

/-! ### Stage 2: intelligent line merging (source lines 21–85) -/

/-- `String.prototype.split('\n')`. -/
def splitOnNewlines : List Char → List (List Char)
  | [] => [[]]
  | c :: cs =>
    if c = '\n' then [] :: splitOnNewlines cs
    else
      match splitOnNewlines cs with
      | [] => [[c]]
      | line :: ls => (c :: line) :: ls

/-- The trimmed, non-empty line list fed to the merging loop
(source lines 23–26). -/
def toLines (l : List Char) : List (List Char) :=
  ((splitOnNewlines l).map jsTrim).filter (fun s => decide (0 < s.length))

/-- `/^[●•▪▫◦‣⁃]/.test(currentLine)` — line starts with a bullet glyph
(line 36; the canonical `●` is included here). -/
def isBulletPoint (l : List Char) : Bool :=
  match l with
  | c :: _ =>
    c = '●' || c = '•' || c = '▪' || c = '▫' || c = '◦' || c = '‣' || c = '⁃'
  | [] => false

/-- The class `[A-Z\s&]` of the caps-header pattern. -/
def isCapsHeaderChar (c : Char) : Bool :=
  isUpperAZ c || isJsWhitespace c || c = '&'

/-- `/^[A-Z\s&]{2,35}$/.test(currentLine)` (line 41): the anchored pattern
matches iff every character is in the class and the length lies in
`[2, 35]`. -/
def matchesCapsPattern (l : List Char) : Bool :=
  l.all isCapsHeaderChar && decide (2 ≤ l.length) && decide (l.length ≤ 35)

/-- `isHeaderCaps` (lines 40–41): all-caps header detection. -/
def isHeaderCaps (l : List Char) : Bool :=
  matchesCapsPattern l && decide (l.length < 40)

/-- `/:\s*$/.test(currentLine)`: a colon followed only by whitespace up to
the end, i.e. after stripping trailing whitespace the line ends in `:`. -/
def colonBeforeTrailingWs (l : List Char) : Bool :=
  match l.reverse.dropWhile isJsWhitespace with
  | c :: _ => c = ':'
  | [] => false

/-- `isHeaderColon` (line 44): header ending in a colon. -/
def isHeaderColon (l : List Char) : Bool :=
  colonBeforeTrailingWs l && decide (l.length < 50)

/-- `/^[A-Z][a-z]+\s+\d{4}\s*[–-]/.test(currentLine)` (line 47): date
range start such as `October 2024 –`. -/
def isDateRange (l : List Char) : Bool :=
  match l with
  | c :: rest =>
    isUpperAZ c &&
    !(rest.takeWhile isLowerAZ).isEmpty &&
    (let r1 := rest.dropWhile isLowerAZ
     !(r1.takeWhile isJsWhitespace).isEmpty &&
     match r1.dropWhile isJsWhitespace with
     | d1 :: d2 :: d3 :: d4 :: r2 =>
       isAsciiDigit d1 && isAsciiDigit d2 && isAsciiDigit d3 && isAsciiDigit d4 &&
       (match r2.dropWhile isJsWhitespace with
        | e :: _ => e = '–' || e = '-'
        | [] => false)
     | _ => false)
  | [] => false

/-- The class `[A-Za-z\s&]` of the company/location pattern. -/
def isNameChar (c : Char) : Bool :=
  isAlphaAZ c || isJsWhitespace c || c = '&'

/-- `/^[A-Z][A-Za-z\s&]+\([^)]+\)\s+/.test(currentLine)` (lines 50–52):
company/location pattern such as `Google (Mountain View) …`. -/
def isCompanyLocation (l : List Char) : Bool :=
  match l with
  | c :: rest =>
    isUpperAZ c &&
    !(rest.takeWhile isNameChar).isEmpty &&
    (match rest.dropWhile isNameChar with
     | p :: r2 =>
       p = '(' &&
       !(r2.takeWhile (fun d => !(d = ')'))).isEmpty &&
       (match r2.dropWhile (fun d => !(d = ')')) with
        | q :: r3 => q = ')' && !(r3.takeWhile isJsWhitespace).isEmpty
        | [] => false)
     | [] => false)
  | [] => false

/-- `isNewSection` (lines 57–63): the line starts a new section. -/
def isNewSection (i : Nat) (cur : List Char) : Bool :=
  isBulletPoint cur || isHeaderCaps cur || isHeaderColon cur ||
  isDateRange cur || isCompanyLocation cur || decide (i < 2)

/-- `prevLine.endsWith(':')`. -/
def endsWithColon (l : List Char) : Bool :=
  match l.getLast? with
  | some c => c = ':'
  | none => false

/-- `shouldMerge` (lines 72–76). -/
def shouldMerge (i : Nat) (prev cur : List Char) : Bool :=
  !isNewSection i cur && decide (0 < prev.length) && !isBulletPoint cur &&
  !endsWithColon prev

/-- One iteration of the merging loop (lines 78–84).  The accumulator is
kept in reverse order: its head is the most recent logical line
(`prevLine` is `''` when the accumulator is empty). -/
def mergeStep (i : Nat) (acc : List (List Char)) (cur : List Char) :
    List (List Char) :=
  match acc with
  | [] => [cur]
  | prev :: rest =>
    if shouldMerge i prev cur then (prev ++ ' ' :: cur) :: rest
    else cur :: prev :: rest

/-- The merging loop over all lines, carrying the line index. -/
def mergeLoop (i : Nat) (acc : List (List Char)) :
    List (List Char) → List (List Char)
  | [] => acc
  | cur :: rest => mergeLoop (i + 1) (mergeStep i acc cur) rest

/-- The processed logical lines of the merging stage, in order. -/
def mergeLines (lines : List (List Char)) : List (List Char) :=
  (mergeLoop 0 [] lines).reverse

/-- `Array.prototype.join` with a separator. -/
def joinWith (sep : List Char) : List (List Char) → List Char
  | [] => []
  | [l] => l
  | l :: ls => l ++ sep ++ joinWith sep ls

/-- `processedLines.join('\n')` (line 88). -/
def joinLines (lines : List (List Char)) : List Char :=
  joinWith ['\n'] lines

/-- `cleanExtractedText` (source lines 3–112).  `none` models a `null` or
`undefined` argument; the falsy check also returns `''` for the empty
string. -/
def cleanExtractedText (o : Option (List Char)) : List Char :=
  match o with
  | none => []
  | some t =>
    if t = [] then []
    else postProcess (joinLines (mergeLines (toLines (initialClean t))))

/-! ### The batch extraction orchestrator `extractTextFromPDFs`
(source lines 114–168) -/

/-- The shapes a `parser.getText()` result can take, as far as the source
inspects them: a plain string, an object with an optional string `text`
property and an optional `pages` array (each page with an optional string
`text`), or anything else (e.g. `null`). -/
inductive ExtractResult where
  | rstr (s : List Char)
  | robj (text : Option (List Char)) (pages : Option (List (Option (List Char))))
  | rother

/-- Page flattening (source lines 149–152): `pages.map(p => p?.text || '')
.filter(t => t?.trim()?.length > 0).join('\n\n')`. -/
def flattenPages (pages : List (Option (List Char))) : List Char :=
  joinWith ['\n', '\n']
    ((pages.map (fun p => p.getD [])).filter (fun t => decide (0 < (jsTrim t).length)))

/-- The `plainText` computed from the extractor's result
(source lines 134–154). -/
def plainTextOf : ExtractResult → List Char
  | .rstr s => s
  | .robj (some t) _ => t
  | .robj none (some pages) =>
    if 0 < pages.length then flattenPages pages else []
  | .robj none none => []
  | .rother => []

/-- The body of the per-buffer loop (source lines 123–164): a missing
buffer contributes `''` without calling the extractor; an extractor throw
(modelled by `Except.error`) is caught and contributes `''`; otherwise the
result is normalized to a plain string and cleaned. -/
def processOne {β : Type} (extract : β → Except Unit ExtractResult)
    (ob : Option β) : List Char :=
  match ob with
  | none => []
  | some b =>
    match extract b with
    | .error _ => []
    | .ok r => cleanExtractedText (some (plainTextOf r))

/-- `extractTextFromPDFs` (source lines 114–168), with the external
`PDFParse`/`getText` collaborator abstracted as `extract`. -/
def extractTextFromPDFs {β : Type} (extract : β → Except Unit ExtractResult)
    (buffers : List (Option β)) : List (List Char) :=
  buffers.map (processOne extract)

/-! ### Claim theorems -/

/-- C1: for every input sequence of optional document buffers,
`extractTextFromPDFs` returns a sequence of strings of exactly the same
length as the input, with output slot `i` corresponding to input slot `i`
(each slot is the per-document processing of the same input slot),
including for the empty batch and when some documents fail or are
absent. -/
theorem c1_batch_alignment {β : Type} (extract : β → Except Unit ExtractResult)
    (buffers : List (Option β)) :
    (extractTextFromPDFs extract buffers).length = buffers.length ∧
    ∀ i : Nat, (extractTextFromPDFs extract buffers).get? i =
      (buffers.get? i).map (processOne extract) := by
  constructor
  · simp [extractTextFromPDFs]
  · intro i
    simp [extractTextFromPDFs, List.get?_eq_getElem?, List.getElem?_map]

/-- C2: if the extractor throws (`Except.error`) for the buffer at slot
`i`, the output at slot `i` is the empty string; if the payload at slot
`i` is absent, the output there is the empty string and does not depend
on the extractor at all (third conjunct — the extractor is not invoked);
and every slot `j` of the output is determined by input slot `j` alone,
so a single document's failure never aborts or perturbs the rest of the
batch (fourth conjunct). -/
theorem c2_failure_isolation {β : Type}
    (extract : β → Except Unit ExtractResult) (buffers : List (Option β))
    (i : Nat) (b : β) :
    (buffers.get? i = some none →
      (extractTextFromPDFs extract buffers).get? i = some []) ∧
    (buffers.get? i = some (some b) → extract b = .error () →
      (extractTextFromPDFs extract buffers).get? i = some []) ∧
    (∀ extract2 : β → Except Unit ExtractResult,
      processOne extract2 (none : Option β) = []) ∧
    (∀ j : Nat, (extractTextFromPDFs extract buffers).get? j =
      (buffers.get? j).map (processOne extract)) := by
  refine ⟨?_, ?_, fun _ => rfl, fun j => by
    simp [extractTextFromPDFs, List.get?_eq_getElem?, List.getElem?_map]⟩
  · intro hi
    rw [List.get?_eq_getElem?] at hi
    simp [extractTextFromPDFs, List.get?_eq_getElem?, List.getElem?_map, hi, processOne]
  · intro hi he
    rw [List.get?_eq_getElem?] at hi
    simp [extractTextFromPDFs, List.get?_eq_getElem?, List.getElem?_map, hi, processOne, he]

theorem c2_failure_isolation_witness :
    ([some 0, some 1].get? (0 : Nat) = some (some (0 : Nat)) ∧
      (fun _ : Nat => (Except.error () : Except Unit ExtractResult)) 0 = .error ()) ∧
    (extractTextFromPDFs (fun _ : Nat => (Except.error () : Except Unit ExtractResult))
      [some 0, some 1]).get? (0 : Nat) = some [] ∧
    (extractTextFromPDFs (fun _ : Nat => (Except.error () : Except Unit ExtractResult))
      [none, some 1]).get? (0 : Nat) = some [] :=
  ⟨⟨rfl, rfl⟩,
    (c2_failure_isolation (fun _ => .error ()) [some 0, some 1] 0 0).2.1 rfl rfl,
    (c2_failure_isolation (fun _ => .error ()) [none, some 1] 0 1).1 rfl⟩

/-- C10: when the extractor's result object carries both a string `text`
property and a `pages` array, the `text` property is used and `pages` is
ignored; page flattening (dropping pages whose trimmed text is empty and
joining the rest with a blank line) applies only when there is no string
`text` and the `pages` array is non-empty; if neither shape matches (or
the `pages` array is empty), the document yields the empty string.  The
last conjunct exercises the flattening itself. -/
theorem c10_result_shapes {β : Type}
    (extract : β → Except Unit ExtractResult) (buffers : List (Option β))
    (i : Nat) (b : β) (t : List Char) (ps : List (Option (List Char))) :
    (buffers.get? i = some (some b) → extract b = .ok (.robj (some t) (some ps)) →
      (extractTextFromPDFs extract buffers).get? i =
        some (cleanExtractedText (some t))) ∧
    (buffers.get? i = some (some b) → extract b = .ok (.robj none (some ps)) →
      ps ≠ [] →
      (extractTextFromPDFs extract buffers).get? i =
        some (cleanExtractedText (some (flattenPages ps)))) ∧
    (buffers.get? i = some (some b) → extract b = .ok (.robj none none) →
      (extractTextFromPDFs extract buffers).get? i = some []) ∧
    (buffers.get? i = some (some b) → extract b = .ok (.robj none (some [])) →
      (extractTextFromPDFs extract buffers).get? i = some []) ∧
    flattenPages [some (str "a"), none, some (str "  "), some (str "b")] =
      str "a\n\nb" := by
  refine ⟨?_, ?_, ?_, ?_, by decide⟩
  · intro hi he
    rw [List.get?_eq_getElem?] at hi
    simp [extractTextFromPDFs, List.get?_eq_getElem?, List.getElem?_map, hi,
      processOne, he, plainTextOf]
  · intro hi he hne
    rw [List.get?_eq_getElem?] at hi
    have hlen : 0 < ps.length := List.length_pos.mpr hne
    simp [extractTextFromPDFs, List.get?_eq_getElem?, List.getElem?_map, hi,
      processOne, he, plainTextOf, hlen]
  · intro hi he
    rw [List.get?_eq_getElem?] at hi
    simp [extractTextFromPDFs, List.get?_eq_getElem?, List.getElem?_map, hi,
      processOne, he, plainTextOf, cleanExtractedText]
  · intro hi he
    rw [List.get?_eq_getElem?] at hi
    simp [extractTextFromPDFs, List.get?_eq_getElem?, List.getElem?_map, hi,
      processOne, he, plainTextOf, cleanExtractedText]

theorem c10_result_shapes_witness :
    (extractTextFromPDFs
      (fun n : Nat =>
        if n = 0 then .ok (.robj (some (str "Hi there")) (some [some (str "ignored")]))
        else if n = 1 then .ok (.robj none (some [some (str "p1"), some (str "p2")]))
        else if n = 2 then .ok (.robj none none)
        else .ok (.robj none (some [])))
      [some 0, some 1, some 2, some 3]).get? (0 : Nat) =
        some (cleanExtractedText (some (str "Hi there"))) ∧
    (extractTextFromPDFs
      (fun n : Nat =>
        if n = 0 then .ok (.robj (some (str "Hi there")) (some [some (str "ignored")]))
        else if n = 1 then .ok (.robj none (some [some (str "p1"), some (str "p2")]))
        else if n = 2 then .ok (.robj none none)
        else .ok (.robj none (some [])))
      [some 0, some 1, some 2, some 3]).get? (1 : Nat) =
        some (cleanExtractedText (some (flattenPages [some (str "p1"), some (str "p2")]))) ∧
    (extractTextFromPDFs
      (fun n : Nat =>
        if n = 0 then .ok (.robj (some (str "Hi there")) (some [some (str "ignored")]))
        else if n = 1 then .ok (.robj none (some [some (str "p1"), some (str "p2")]))
        else if n = 2 then .ok (.robj none none)
        else .ok (.robj none (some [])))
      [some 0, some 1, some 2, some 3]).get? (2 : Nat) = some [] ∧
    (extractTextFromPDFs
      (fun n : Nat =>
        if n = 0 then .ok (.robj (some (str "Hi there")) (some [some (str "ignored")]))
        else if n = 1 then .ok (.robj none (some [some (str "p1"), some (str "p2")]))
        else if n = 2 then .ok (.robj none none)
        else .ok (.robj none (some [])))
      [some 0, some 1, some 2, some 3]).get? (3 : Nat) = some [] :=
  ⟨(c10_result_shapes _ _ 0 0 (str "Hi there") [some (str "ignored")]).1 rfl rfl,
    (c10_result_shapes _ _ 1 1 (str "x") [some (str "p1"), some (str "p2")]).2.1
      rfl rfl (by decide),
    (c10_result_shapes _ _ 2 2 (str "x") []).2.2.1 rfl rfl,
    (c10_result_shapes _ _ 3 3 (str "x") []).2.2.2.1 rfl rfl⟩

/-- C4 counterexample: the code's caps-header pattern `[A-Z\s&]{2,35}`
accepts lines of length 35, so an all-caps line of exactly 35 characters
is classified caps-header, contradicting the claim's bound of 34 and its
"length 35 or more is not a caps-header". -/
theorem c4_caps_header_35_counterexample :
    isHeaderCaps (List.replicate 35 'A') = true ∧
      ¬(List.replicate 35 'A' : List Char).length ≤ 34 := by
  constructor
  · decide
  · decide

/-- C4 (amended): a line is classified caps-header exactly when every
character is an uppercase letter, a whitespace character, or an
ampersand, and the length is between 2 and 35 inclusive (so length 36 or
more is never a caps-header; the code's extra `length < 40` test is
subsumed by the pattern's upper bound of 35). -/
theorem c4_caps_header_characterization (l : List Char) :
    isHeaderCaps l = true ↔
      (∀ c ∈ l, isCapsHeaderChar c = true) ∧ 2 ≤ l.length ∧ l.length ≤ 35 := by
  unfold isHeaderCaps matchesCapsPattern
  simp only [Bool.and_eq_true, decide_eq_true_eq, List.all_eq_true]
  constructor
  · rintro ⟨⟨⟨h1, h2⟩, h3⟩, _⟩
    exact ⟨h1, h2, h3⟩
  · rintro ⟨h1, h2, h3⟩
    exact ⟨⟨⟨h1, h2⟩, h3⟩, by omega⟩

/-- The classification tags of the line classifier (spec §4.2). -/
inductive LineTag where
  | bulletItem
  | capsHeader
  | colonHeader
  | dateRangeStart
  | entityLocationLine
  | preambleLine
  | bodyContinuation
deriving DecidableEq

/-- The priority-ordered line classifier of spec §4.2 (first match wins),
assembled from the source's per-tag tests; `bodyContinuation` is the
fallback tag. -/
def classifyLine (i : Nat) (l : List Char) : LineTag :=
  if isBulletPoint l then .bulletItem
  else if isHeaderCaps l then .capsHeader
  else if isHeaderColon l then .colonHeader
  else if isDateRange l then .dateRangeStart
  else if isCompanyLocation l then .entityLocationLine
  else if i < 2 then .preambleLine
  else .bodyContinuation

theorem classifyLine_body_iff (i : Nat) (l : List Char) :
    classifyLine i l = .bodyContinuation ↔ isNewSection i l = false := by
  unfold classifyLine isNewSection
  by_cases h1 : isBulletPoint l = true
  · simp [h1]
  · rw [if_neg h1]
    by_cases h2 : isHeaderCaps l = true
    · simp [h1, h2]
    · rw [if_neg h2]
      by_cases h3 : isHeaderColon l = true
      · simp [h1, h2, h3]
      · rw [if_neg h3]
        by_cases h4 : isDateRange l = true
        · simp [h1, h2, h3, h4]
        · rw [if_neg h4]
          by_cases h5 : isCompanyLocation l = true
          · simp [h1, h2, h3, h4, h5]
          · rw [if_neg h5]
            by_cases h6 : i < 2
            · simp [h1, h2, h3, h4, h5, h6]
            · simp [h1, h2, h3, h4, h5, h6]

/-- C5: a classified line `cur` is merged into the previous logical line
`prev` iff `cur` is classified body-continuation, `prev` exists, `cur` is
not a bullet item, and `prev` does not end in a colon (first conjunct:
`shouldMerge` characterised through the priority classifier; second and
third conjuncts: the loop body merges exactly when `shouldMerge` holds
and pushes otherwise); in particular a line ending in a colon never
absorbs the following line (last conjuncts: the spec's `Languages:` /
`Python, Rust` example stays two separate logical lines, both in
preamble position and at later positions where only the colon blocks the
merge). -/
theorem c5_merge_rule :
    (∀ (i : Nat) (prev cur : List Char),
      shouldMerge i prev cur = true ↔
        (classifyLine i cur = .bodyContinuation ∧ prev ≠ [] ∧
          classifyLine i cur ≠ .bulletItem ∧ prev.getLast? ≠ some ':')) ∧
    (∀ (i : Nat) (prev : List Char) (rest : List (List Char)) (cur : List Char),
      mergeStep i (prev :: rest) cur =
        if shouldMerge i prev cur = true then (prev ++ ' ' :: cur) :: rest
        else cur :: prev :: rest) ∧
    (∀ (i : Nat) (cur : List Char), mergeStep i [] cur = [cur]) ∧
    mergeLines [str "Languages:", str "Python, Rust"] =
      [str "Languages:", str "Python, Rust"] ∧
    mergeLines [str "John Doe", str "Acme Corp", str "Languages:", str "Python, Rust"] =
      [str "John Doe", str "Acme Corp", str "Languages:", str "Python, Rust"] ∧
    isNewSection 3 (str "Python, Rust") = false ∧
    shouldMerge 3 (str "Languages:") (str "Python, Rust") = false := by
  refine ⟨?_, fun i prev rest cur => rfl, fun i cur => rfl,
    by decide, by decide, by decide, by decide⟩
  intro i prev cur
  unfold shouldMerge
  simp only [Bool.and_eq_true, Bool.not_eq_true', decide_eq_true_eq,
    classifyLine_body_iff]
  constructor
  · rintro ⟨⟨⟨hns, hprev⟩, hbul⟩, hcol⟩
    refine ⟨hns, ?_, ?_, ?_⟩
    · intro he
      subst he
      simp at hprev
    · rw [(classifyLine_body_iff i cur).mpr hns]
      simp
    · unfold endsWithColon at hcol
      intro he
      rw [he] at hcol
      simp at hcol
  · rintro ⟨hns, hprev, _, hcol⟩
    refine ⟨⟨⟨hns, ?_⟩, ?_⟩, ?_⟩
    · cases prev with
      | nil => exact absurd rfl hprev
      | cons a as => simp
    · unfold isNewSection at hns
      simp only [Bool.or_eq_false_iff] at hns
      exact hns.1.1.1.1.1
    · unfold endsWithColon
      cases hg : prev.getLast? with
      | none => rfl
      | some c =>
        simp only
        rw [decide_eq_false_iff_not]
        intro hc
        exact hcol (by rw [hg, hc])

/-- C7: in the punctuation repair, a hyphen between two 4-digit numbers
gets exactly one space on each side while a hyphen between ordinary word
characters is tightened; the year-range rule runs after the tightening
rule and overrides it for the numeric case (last two conjuncts: the
tightening pass leaves `2020-2023` unchanged and the year pass then
spaces it). -/
theorem c7_hyphen_spacing :
    postProcess (str "2020-2023") = str "2020 - 2023" ∧
    postProcess (str "full - time") = str "full-time" ∧
    postProcess (str "full-time") = str "full-time" ∧
    postProcess (str "Worked 2020-2023 as full - time dev") =
      str "Worked 2020 - 2023 as full-time dev" ∧
    replaceDashTighten (str "2020-2023") = str "2020-2023" ∧
    replaceYearRange (replaceDashTighten (str "2020-2023")) = str "2020 - 2023" := by
  refine ⟨by decide, by decide, by decide, by decide, by decide, by decide⟩

/-- C8 counterexample: for the spec's example input the code does *not*
keep "Built systems that scale." as a third logical line — since
"Senior Engineer" does not end in a colon and "Built systems" (at
position 2) is not structural, the loop merges it into line 1.  The
actual output has two logical lines. -/
theorem c8_preamble_example_counterexample :
    cleanExtractedText
        (some (str "John Doe\nSenior Engineer\nBuilt systems\nthat scale.")) =
      str "John Doe\nSenior Engineer Built systems that scale." ∧
    cleanExtractedText
        (some (str "John Doe\nSenior Engineer\nBuilt systems\nthat scale.")) ≠
      str "John Doe\nSenior Engineer\nBuilt systems that scale." := by
  constructor
  · decide
  · decide

/-- C8 (amended): the first two non-empty lines are always classified
structural and each starts its own logical line, never merged into a
previous line, regardless of shape (first conjunct); but they are not
protected from later body lines merging *into* them, so for the lines
`["John Doe", "Senior Engineer", "Built systems", "that scale."]` the
output is the two logical lines `"John Doe"` and
`"Senior Engineer Built systems that scale."`. -/
theorem c8_preamble_protected :
    (∀ (acc : List (List Char)) (cur : List Char),
      mergeStep 0 acc cur = cur :: acc ∧ mergeStep 1 acc cur = cur :: acc) ∧
    cleanExtractedText
        (some (str "John Doe\nSenior Engineer\nBuilt systems\nthat scale.")) =
      str "John Doe\nSenior Engineer Built systems that scale." := by
  constructor
  · intro acc cur
    constructor
    · cases acc with
      | nil => rfl
      | cons prev rest =>
        unfold mergeStep shouldMerge isNewSection
        simp
    · cases acc with
      | nil => rfl
      | cons prev rest =>
        unfold mergeStep shouldMerge isNewSection
        simp
  · decide

/-! ### Helper lemmas for C6: bullet lines and glyph normalization -/

theorem mem_trimRight {c : Char} : ∀ {l : List Char}, c ∈ trimRight l → c ∈ l := by
  intro l
  induction l with
  | nil => intro h; simp [trimRight] at h
  | cons d ds ih =>
    intro h
    rw [trimRight] at h
    rcases hr : trimRight ds with _ | ⟨x, xs⟩
    · rw [hr] at h
      simp only at h
      by_cases hw : isJsWhitespace d = true
      · rw [if_pos hw] at h; cases h
      · rw [if_neg hw] at h
        simp only [List.mem_singleton] at h
        exact h ▸ List.mem_cons_self d ds
    · rw [hr] at h
      simp only at h
      rcases List.mem_cons.mp h with h | h
      · exact h ▸ List.mem_cons_self d ds
      · exact List.mem_cons_of_mem d (ih (hr ▸ h))

theorem mem_jsTrim {c : Char} {l : List Char} (h : c ∈ jsTrim l) : c ∈ l :=
  (List.dropWhile_suffix isJsWhitespace).subset (mem_trimRight h)

theorem replaceBulletNorm_no_glyph :
    ∀ (n : Nat) (s : List Char), s.length ≤ n →
      ∀ c ∈ replaceBulletNorm s, isNonCanonicalBullet c = false := by
  intro n
  induction n with
  | zero =>
    intro s hs c hc
    have h0 : s = [] := List.length_eq_zero.mp (Nat.le_zero.mp hs)
    subst h0
    rw [replaceBulletNorm, runRepl_nil] at hc
    cases hc
  | succ n ih =>
    intro s hs c hc
    match s with
    | [] => rw [replaceBulletNorm, runRepl_nil] at hc; cases hc
    | d :: ds =>
      rw [replaceBulletNorm, runRepl_cons _ tryBulletNorm_tame.shrinks] at hc
      simp only [List.length_cons] at hs
      by_cases hb : isNonCanonicalBullet d = true
      · rw [show tryBulletNorm (d :: ds) = some (['●'], ds) by
          simp [tryBulletNorm, hb]] at hc
        simp only at hc
        rcases List.mem_append.mp hc with hc | hc
        · simp only [List.mem_singleton] at hc
          subst hc
          decide
        · exact ih ds (by omega) c hc
      · rw [show tryBulletNorm (d :: ds) = none by
          simp [tryBulletNorm, hb]] at hc
        simp only at hc
        rcases List.mem_cons.mp hc with hc | hc
        · subst hc
          exact Bool.eq_false_iff.mpr hb
        · exact ih ds (by omega) c hc

theorem mem_replaceNewlines3 :
    ∀ (n : Nat) (s : List Char), s.length ≤ n →
      ∀ c ∈ replaceNewlines3 s, c ∈ s ∨ c = '\n' := by
  intro n
  induction n with
  | zero =>
    intro s hs c hc
    have h0 : s = [] := List.length_eq_zero.mp (Nat.le_zero.mp hs)
    subst h0
    rw [replaceNewlines3, runRepl_nil] at hc
    cases hc
  | succ n ih =>
    intro s hs c hc
    match s with
    | [] => rw [replaceNewlines3, runRepl_nil] at hc; cases hc
    | d :: ds =>
      rw [replaceNewlines3, runRepl_cons _ tryNewlines3_shrinks] at hc
      simp only [List.length_cons] at hs
      cases h : tryNewlines3 (d :: ds) with
      | some pr =>
        obtain ⟨rep, rest⟩ := pr
        rw [h] at hc
        simp only at hc
        obtain ⟨hrep, hsfx, hlen⟩ := tryNewlines3_props _ _ _ h
        rcases List.mem_append.mp hc with hc | hc
        · subst hrep
          simp only [List.mem_cons, List.not_mem_nil, or_false] at hc
          rcases hc with hc | hc
          · exact Or.inr hc
          · exact Or.inr hc
        · simp only [List.length_cons] at hlen
          rcases ih rest (by omega) c hc with hin | hnl
          · exact Or.inl (hsfx.subset hin)
          · exact Or.inr hnl
      | none =>
        rw [h] at hc
        simp only at hc
        rcases List.mem_cons.mp hc with hc | hc
        · exact Or.inl (hc ▸ List.mem_cons_self d ds)
        · rcases ih ds (by omega) c hc with hin | hnl
          · exact Or.inl (List.mem_cons_of_mem d hin)
          · exact Or.inr hnl

/-- C6: a trimmed non-empty line that begins with any bullet glyph in
{●,•,▪,▫,◦,‣,⁃} is never merged into the preceding logical line — the
loop always pushes it as a new logical line (first conjunct); the final
output of `cleanExtractedText` never contains a non-canonical bullet
glyph (second conjunct: every surviving glyph has been normalized), and
the normalization rule rewrites each non-canonical glyph occurrence to
`●` (third conjunct). -/
theorem c6_bullet_lines :
    (∀ (i : Nat) (acc : List (List Char)) (cur : List Char),
      isBulletPoint cur = true → mergeStep i acc cur = cur :: acc) ∧
    (∀ (o : Option (List Char)) (c : Char), c ∈ cleanExtractedText o →
      isNonCanonicalBullet c = false) ∧
    (∀ (c : Char) (lineRest : List Char), isNonCanonicalBullet c = true →
      tryBulletNorm (c :: lineRest) = some (['●'], lineRest)) := by
  refine ⟨?_, ?_, ?_⟩
  · intro i acc cur hb
    cases acc with
    | nil => rfl
    | cons prev rest =>
      unfold mergeStep shouldMerge
      rw [hb]
      simp
  · intro o c hc
    match o with
    | none => cases hc
    | some t =>
      simp only [cleanExtractedText] at hc
      by_cases ht : t = []
      · rw [if_pos ht] at hc; cases hc
      · rw [if_neg ht] at hc
        unfold postProcess at hc
        have h1 := mem_jsTrim hc
        rcases mem_replaceNewlines3 _ _ le_rfl c h1 with h2 | h2
        · exact replaceBulletNorm_no_glyph _ _ le_rfl c h2
        · subst h2; decide
  · intro c lineRest hb
    simp [tryBulletNorm, hb]

theorem c6_bullet_lines_witness :
    (isBulletPoint (str "● kept own line") = true ∧
      mergeStep 5 [str "previous line"] (str "● kept own line") =
        [str "● kept own line", str "previous line"]) ∧
    ('●' ∈ cleanExtractedText (some (str "• item")) ∧
      isNonCanonicalBullet '●' = false) ∧
    (isNonCanonicalBullet '•' = true ∧
      tryBulletNorm ('•' :: str " item") = some (['●'], str " item")) :=
  ⟨⟨by decide, c6_bullet_lines.1 5 [str "previous line"] _ (by decide)⟩,
    ⟨by decide, c6_bullet_lines.2.1 (some (str "• item")) '●' (by decide)⟩,
    ⟨by decide, c6_bullet_lines.2.2 '•' (str " item") (by decide)⟩⟩

/-! ### Helper lemmas for C9: the output never contains a blank line -/

/-- Whether a string starts with a newline. -/
def headIsNewline : List Char → Bool
  | c :: _ => c = '\n'
  | [] => false

/-- No two consecutive newline characters. -/
def noNN : List Char → Bool
  | [] => true
  | [_] => true
  | a :: b :: rest => (!(a = '\n' && b = '\n')) && noNN (b :: rest)

theorem noNN_cons_iff {a : Char} {t : List Char} :
    noNN (a :: t) = true ↔
      noNN t = true ∧ ¬(a = '\n' ∧ headIsNewline t = true) := by
  cases t with
  | nil => simp [noNN, headIsNewline]
  | cons b r =>
    show ((!(a = '\n' && b = '\n')) && noNN (b :: r)) = true ↔ _
    simp only [Bool.and_eq_true, Bool.not_eq_true', Bool.and_eq_false_iff,
      headIsNewline, decide_eq_true_eq, decide_eq_false_iff_not]
    tauto

theorem noNN_tail {a : Char} {t : List Char} (h : noNN (a :: t) = true) :
    noNN t = true := (noNN_cons_iff.mp h).1

theorem noNN_of_not_mem : ∀ {l : List Char}, '\n' ∉ l → noNN l = true := by
  intro l
  induction l with
  | nil => intro _; rfl
  | cons a t ih =>
    intro h
    rw [noNN_cons_iff]
    refine ⟨ih (fun hm => h (List.mem_cons_of_mem a hm)), ?_⟩
    rintro ⟨ha, _⟩
    exact h (ha ▸ List.mem_cons_self a t)

theorem headIsNewline_false_of_not_mem {l : List Char} (h : '\n' ∉ l) :
    headIsNewline l = false := by
  cases l with
  | nil => rfl
  | cons a t =>
    show decide (a = '\n') = false
    rw [decide_eq_false_iff_not]
    intro ha
    exact h (ha ▸ List.mem_cons_self a t)

theorem noNN_suffix {l m : List Char} (h : l <:+ m) (hm : noNN m = true) :
    noNN l = true := by
  obtain ⟨pre, rfl⟩ := h
  induction pre with
  | nil => exact hm
  | cons p ps ih => exact ih (noNN_tail hm)

theorem headIsNewline_append_left {xs ys : List Char} (h : xs ≠ []) :
    headIsNewline (xs ++ ys) = headIsNewline xs := by
  cases xs with
  | nil => exact absurd rfl h
  | cons a t => rfl

theorem mem_of_getLast_eq : ∀ {l : List Char} {a : Char},
    l.getLast? = some a → a ∈ l := by
  intro l
  induction l with
  | nil => intro a h; cases h
  | cons c cs ih =>
    intro a h
    cases cs with
    | nil =>
      have : c = a := by
        have : some c = some a := h
        injection this
      exact this ▸ List.mem_cons_self c []
    | cons d ds =>
      rw [List.getLast?_cons_cons] at h
      exact List.mem_cons_of_mem c (ih h)

theorem noNN_append {xs ys : List Char}
    (hx : noNN xs = true) (hy : noNN ys = true)
    (hj : xs.getLast? = some '\n' → headIsNewline ys = false) :
    noNN (xs ++ ys) = true := by
  induction xs with
  | nil => exact hy
  | cons a t ih =>
    cases t with
    | nil =>
      show noNN (a :: ys) = true
      rw [noNN_cons_iff]
      refine ⟨hy, ?_⟩
      rintro ⟨ha, hys⟩
      have := hj (by rw [ha]; rfl)
      rw [hys] at this
      cases this
    | cons b r =>
      show noNN (a :: ((b :: r) ++ ys)) = true
      rw [noNN_cons_iff]
      have hx' := noNN_cons_iff.mp hx
      refine ⟨ih hx'.1 (fun hl => hj (by rw [List.getLast?_cons_cons]; exact hl)), ?_⟩
      rintro ⟨ha, hb⟩
      rw [show ((b :: r) ++ ys : List Char) = b :: (r ++ ys) from rfl] at hb
      exact hx'.2 ⟨ha, hb⟩

theorem runRepl_noNN (f : Matcher) (hf : TameRule f) :
    ∀ (n : Nat) (s : List Char), s.length ≤ n → noNN s = true →
      noNN (runRepl f s) = true ∧
        (headIsNewline (runRepl f s) = true → headIsNewline s = true) := by
  intro n
  induction n with
  | zero =>
    intro s hn _
    have h0 : s = [] := List.length_eq_zero.mp (Nat.le_zero.mp hn)
    subst h0
    rw [runRepl_nil]
    exact ⟨rfl, fun h => h⟩
  | succ n ih =>
    intro s hn hs
    match s with
    | [] => rw [runRepl_nil]; exact ⟨rfl, fun h => h⟩
    | d :: ds =>
      rw [runRepl_cons f hf.shrinks]
      simp only [List.length_cons] at hn
      cases h : f (d :: ds) with
      | some pr =>
        obtain ⟨rep, rest⟩ := pr
        simp only
        obtain ⟨hne, hnl, hsfx, hlen⟩ := hf _ _ _ h
        simp only [List.length_cons] at hlen
        obtain ⟨ih1, _⟩ := ih rest (by omega) (noNN_suffix hsfx hs)
        constructor
        · refine noNN_append (noNN_of_not_mem hnl) ih1 ?_
          intro hg
          exact absurd (mem_of_getLast_eq hg) hnl
        · intro hh
          rw [headIsNewline_append_left hne] at hh
          cases rep with
          | nil => exact absurd rfl hne
          | cons r0 rr =>
            have hr0 : r0 = '\n' := by
              have h2 : decide (r0 = '\n') = true := hh
              rwa [decide_eq_true_eq] at h2
            exact absurd (hr0 ▸ List.mem_cons_self r0 rr) hnl
      | none =>
        simp only
        obtain ⟨ih1, ih2⟩ := ih ds (by omega) (noNN_tail hs)
        constructor
        · rw [noNN_cons_iff]
          refine ⟨ih1, ?_⟩
          rintro ⟨hd, hh⟩
          have := ih2 hh
          exact (noNN_cons_iff.mp hs).2 ⟨hd, this⟩
        · intro hh
          exact hh

theorem tryNewlines3_none_of_noNN {s : List Char} (hs : noNN s = true) :
    tryNewlines3 s = none := by
  match s with
  | [] => rfl
  | [_] => rfl
  | [_, _] => rfl
  | a :: b :: c :: r =>
    unfold tryNewlines3
    simp only
    rw [if_neg]
    rintro ⟨ha, hb, _⟩
    have := (noNN_cons_iff.mp hs).2
    exact this ⟨ha, by rw [hb]; rfl⟩

theorem replaceNewlines3_id_of_noNN :
    ∀ (n : Nat) (s : List Char), s.length ≤ n → noNN s = true →
      replaceNewlines3 s = s := by
  intro n
  induction n with
  | zero =>
    intro s hn _
    have h0 : s = [] := List.length_eq_zero.mp (Nat.le_zero.mp hn)
    subst h0
    exact runRepl_nil _
  | succ n ih =>
    intro s hn hs
    match s with
    | [] => exact runRepl_nil _
    | d :: ds =>
      rw [replaceNewlines3, runRepl_cons _ tryNewlines3_shrinks,
        tryNewlines3_none_of_noNN hs]
      simp only [List.length_cons] at hn
      show d :: runRepl tryNewlines3 ds = d :: ds
      rw [show runRepl tryNewlines3 ds = replaceNewlines3 ds from rfl,
        ih ds (by omega) (noNN_tail hs)]

theorem trimRight_head_eq :
    ∀ l : List Char, trimRight l = [] ∨ (trimRight l).head? = l.head? := by
  intro l
  cases l with
  | nil => exact Or.inl rfl
  | cons c cs =>
    rw [trimRight]
    cases trimRight cs with
    | nil =>
      by_cases hw : isJsWhitespace c = true
      · rw [if_pos hw]; exact Or.inl rfl
      · rw [if_neg hw]; exact Or.inr rfl
    | cons x xs => exact Or.inr rfl

theorem noNN_trimRight : ∀ {l : List Char}, noNN l = true → noNN (trimRight l) = true := by
  intro l
  induction l with
  | nil => intro _; rfl
  | cons c cs ih =>
    intro h
    rw [trimRight]
    cases hr : trimRight cs with
    | nil =>
      by_cases hw : isJsWhitespace c = true
      · rw [if_pos hw]; rfl
      · rw [if_neg hw]; rfl
    | cons x xs =>
      show noNN (c :: x :: xs) = true
      rw [noNN_cons_iff]
      constructor
      · rw [← hr]
        exact ih (noNN_tail h)
      · rintro ⟨hc, hx⟩
        rcases trimRight_head_eq cs with he | he
        · rw [he] at hr; cases hr
        · rw [hr] at he
          cases cs with
          | nil => cases he
          | cons y ys =>
            have hxy : x = y := by
              have : some x = some y := he
              injection this
            exact (noNN_cons_iff.mp h).2 ⟨hc, by
              show decide (y = '\n') = true
              rw [← hxy]
              exact hx⟩

theorem noNN_jsTrim {l : List Char} (h : noNN l = true) : noNN (jsTrim l) = true :=
  noNN_trimRight (noNN_suffix (List.dropWhile_suffix _) h)

theorem splitOnNewlines_no_nl :
    ∀ (l : List Char) (p : List Char), p ∈ splitOnNewlines l → '\n' ∉ p := by
  intro l
  induction l with
  | nil =>
    intro p hp
    simp only [splitOnNewlines, List.mem_singleton] at hp
    subst hp
    simp
  | cons c cs ih =>
    intro p hp
    rw [splitOnNewlines] at hp
    by_cases hc : c = '\n'
    · rw [if_pos hc] at hp
      rcases List.mem_cons.mp hp with hp | hp
      · subst hp; simp
      · exact ih p hp
    · rw [if_neg hc] at hp
      cases hsp : splitOnNewlines cs with
      | nil =>
        rw [hsp] at hp
        simp only [List.mem_singleton] at hp
        subst hp
        intro hm
        simp only [List.mem_singleton] at hm
        exact hc hm.symm
      | cons line ls =>
        rw [hsp] at hp
        simp only at hp
        rcases List.mem_cons.mp hp with hp | hp
        · subst hp
          intro hm
          rcases List.mem_cons.mp hm with hm | hm
          · exact hc hm.symm
          · exact ih line (hsp ▸ List.mem_cons_self line ls) hm
        · exact ih p (hsp ▸ List.mem_cons_of_mem line hp)

theorem toLines_props (l : List Char) :
    ∀ p ∈ toLines l, p ≠ [] ∧ '\n' ∉ p := by
  intro p hp
  unfold toLines at hp
  rw [List.mem_filter] at hp
  obtain ⟨hmem, hlen⟩ := hp
  rw [List.mem_map] at hmem
  obtain ⟨q, hq, rfl⟩ := hmem
  refine ⟨?_, fun hm => splitOnNewlines_no_nl l q hq (mem_jsTrim hm)⟩
  intro he
  rw [he] at hlen
  simp at hlen

theorem mergeStep_props {i : Nat} {acc : List (List Char)} {cur : List Char}
    (hacc : ∀ p ∈ acc, p ≠ [] ∧ '\n' ∉ p) (hcur : cur ≠ [] ∧ '\n' ∉ cur) :
    ∀ p ∈ mergeStep i acc cur, p ≠ [] ∧ '\n' ∉ p := by
  intro p hp
  unfold mergeStep at hp
  match acc, hp with
  | [], hp =>
    simp only [List.mem_singleton] at hp
    subst hp
    exact hcur
  | prev :: rest, hp =>
    simp only at hp
    split at hp
    · rcases List.mem_cons.mp hp with hp | hp
      · subst hp
        obtain ⟨hpne, hpnl⟩ := hacc prev (List.mem_cons_self prev rest)
        refine ⟨by simp [hpne], ?_⟩
        intro hm
        rcases List.mem_append.mp hm with hm | hm
        · exact hpnl hm
        · rcases List.mem_cons.mp hm with hm | hm
          · cases hm
          · exact hcur.2 hm
      · exact hacc p (List.mem_cons_of_mem prev hp)
    · rcases List.mem_cons.mp hp with hp | hp
      · subst hp; exact hcur
      · exact hacc p hp

theorem mergeLoop_props :
    ∀ (lines : List (List Char)) (i : Nat) (acc : List (List Char)),
      (∀ p ∈ acc, p ≠ [] ∧ '\n' ∉ p) → (∀ p ∈ lines, p ≠ [] ∧ '\n' ∉ p) →
      ∀ p ∈ mergeLoop i acc lines, p ≠ [] ∧ '\n' ∉ p := by
  intro lines
  induction lines with
  | nil => intro i acc hacc _ p hp; exact hacc p hp
  | cons cur rest ih =>
    intro i acc hacc hlines p hp
    exact ih (i + 1) (mergeStep i acc cur)
      (mergeStep_props hacc (hlines cur (List.mem_cons_self cur rest)))
      (fun q hq => hlines q (List.mem_cons_of_mem cur hq)) p hp

theorem mergeLines_props (lines : List (List Char))
    (h : ∀ p ∈ lines, p ≠ [] ∧ '\n' ∉ p) :
    ∀ p ∈ mergeLines lines, p ≠ [] ∧ '\n' ∉ p := by
  intro p hp
  rw [mergeLines, List.mem_reverse] at hp
  exact mergeLoop_props lines 0 [] (by intro q hq; cases hq) h p hp

theorem joinLines_noNN :
    ∀ lines : List (List Char), (∀ p ∈ lines, p ≠ [] ∧ '\n' ∉ p) →
      noNN (joinLines lines) = true ∧ headIsNewline (joinLines lines) = false := by
  intro lines
  induction lines with
  | nil => intro _; exact ⟨rfl, rfl⟩
  | cons l ls ih =>
    intro h
    obtain ⟨hlne, hlnl⟩ := h l (List.mem_cons_self l ls)
    cases ls with
    | nil =>
      show noNN l = true ∧ headIsNewline l = false
      exact ⟨noNN_of_not_mem hlnl, headIsNewline_false_of_not_mem hlnl⟩
    | cons l2 ls2 =>
      obtain ⟨ih1, ih2⟩ := ih (fun q hq => h q (List.mem_cons_of_mem l hq))
      have hshape : joinLines (l :: l2 :: ls2) = l ++ '\n' :: joinLines (l2 :: ls2) := by
        show (l ++ ['\n']) ++ joinWith ['\n'] (l2 :: ls2) =
          l ++ '\n' :: joinWith ['\n'] (l2 :: ls2)
        rw [List.append_assoc]
        rfl
      rw [hshape]
      constructor
      · refine noNN_append (noNN_of_not_mem hlnl) ?_ ?_
        · rw [noNN_cons_iff]
          refine ⟨ih1, ?_⟩
          rintro ⟨_, hh⟩
          rw [ih2] at hh
          cases hh
        · intro hg
          exact absurd (mem_of_getLast_eq hg) hlnl
      · rw [headIsNewline_append_left hlne]
        exact headIsNewline_false_of_not_mem hlnl

/-- The text after joining the logical lines of stage 2 never has two
adjacent newlines, and neither does it after each post-processing rule up
to the newline-collapsing rule. -/
theorem pipeline_noNN (t : List Char) :
    noNN (replaceBulletNorm (replaceEmail (replaceYearRange (replaceDashTighten
      (replacePipes (replacePunctPair (replacePunctSpacing
        (joinLines (mergeLines (toLines (initialClean t))))))))))) = true := by
  have h0 := (joinLines_noNN (mergeLines (toLines (initialClean t)))
    (mergeLines_props _ (toLines_props _))).1
  have h1 := (runRepl_noNN tryPunctSpace tryPunctSpace_tame _ _ le_rfl h0).1
  have h2 := (runRepl_noNN tryPunctPair tryPunctPair_tame _ _ le_rfl h1).1
  have h3 := (runRepl_noNN tryPipe tryPipe_tame _ _ le_rfl h2).1
  have h4 := (runRepl_noNN tryDash tryDash_tame _ _ le_rfl h3).1
  have h5 := (runRepl_noNN tryYearRange tryYearRange_tame _ _ le_rfl h4).1
  have h6 := (runRepl_noNN tryEmail tryEmail_tame _ _ le_rfl h5).1
  exact (runRepl_noNN tryBulletNorm tryBulletNorm_tame _ _ le_rfl h6).1

/-- C9: for every input (absent, empty, or arbitrary), the string
returned by `cleanExtractedText` contains no two consecutive newline
characters (first conjunct); in fact the blank-line-collapsing rule can
never fire on the reconstructed text: it is the identity there (second
conjunct). -/
theorem c9_no_blank_lines :
    (∀ o : Option (List Char), noNN (cleanExtractedText o) = true) ∧
    (∀ t : List Char,
      replaceNewlines3 (replaceBulletNorm (replaceEmail (replaceYearRange
        (replaceDashTighten (replacePipes (replacePunctPair (replacePunctSpacing
          (joinLines (mergeLines (toLines (initialClean t))))))))))) =
      replaceBulletNorm (replaceEmail (replaceYearRange (replaceDashTighten
        (replacePipes (replacePunctPair (replacePunctSpacing
          (joinLines (mergeLines (toLines (initialClean t))))))))))) := by
  constructor
  · intro o
    match o with
    | none => rfl
    | some t =>
      simp only [cleanExtractedText]
      by_cases ht : t = []
      · rw [if_pos ht]; rfl
      · rw [if_neg ht]
        unfold postProcess
        refine noNN_jsTrim ?_
        rw [replaceNewlines3_id_of_noNN _ _ le_rfl (pipeline_noNN t)]
        exact pipeline_noNN t
  · intro t
    exact replaceNewlines3_id_of_noNN _ _ le_rfl (pipeline_noNN t)

/-- Whether a string starts with a punctuation character. -/
def headIsPunct : List Char → Bool
  | c :: _ => isPunct c
  | [] => false

def noWsPunct : List Char → Bool
  | a :: b :: r => (!(isJsWhitespace a && isPunct b)) && noWsPunct (b :: r)
  | _ => true

theorem noWsPunct_cons_iff {a : Char} {t : List Char} :
    noWsPunct (a :: t) = true ↔
      noWsPunct t = true ∧ ¬(isJsWhitespace a = true ∧ headIsPunct t = true) := by
  cases t with
  | nil => simp [noWsPunct, headIsPunct]
  | cons b r =>
    show ((!(isJsWhitespace a && isPunct b)) && noWsPunct (b :: r)) = true ↔ _
    simp only [Bool.and_eq_true, Bool.not_eq_true', Bool.and_eq_false_iff,
      headIsPunct, Bool.not_eq_true]
    constructor
    · rintro ⟨h1, h2⟩
      refine ⟨h2, ?_⟩
      rintro ⟨ha, hb⟩
      rcases h1 with h1 | h1
      · rw [ha] at h1; cases h1
      · rw [hb] at h1; cases h1
    · rintro ⟨h1, h2⟩
      refine ⟨?_, h1⟩
      by_cases ha : isJsWhitespace a = true
      · right
        cases hb : isPunct b with
        | false => rfl
        | true => exact absurd ⟨ha, hb⟩ h2
      · left
        exact Bool.eq_false_iff.mpr ha

theorem noWsPunct_tail {a : Char} {t : List Char} (h : noWsPunct (a :: t) = true) :
    noWsPunct t = true := (noWsPunct_cons_iff.mp h).1

/-- Under `noWsPunct`, a whitespace character is never followed (through
further whitespace) by a punctuation character. -/
theorem noWsPunct_dropWhile_head :
    ∀ {t : List Char} {a : Char}, isJsWhitespace a = true →
      noWsPunct (a :: t) = true →
      headIsPunct ((a :: t).dropWhile isJsWhitespace) = false := by
  intro t
  induction t with
  | nil =>
    intro a ha _
    rw [List.dropWhile_cons, if_pos ha]
    rfl
  | cons b r ih =>
    intro a ha h
    rw [List.dropWhile_cons, if_pos ha]
    by_cases hb : isJsWhitespace b = true
    · exact ih hb (noWsPunct_tail h)
    · rw [List.dropWhile_cons, if_neg hb]
      show isPunct b = false
      rcases noWsPunct_cons_iff.mp h with ⟨_, h2⟩
      cases hp : isPunct b with
      | false => rfl
      | true =>
        exact absurd ⟨ha, by show isPunct b = true; exact hp⟩ h2

/-- Rule 1's matcher fires at a position iff the text there starts with
whitespace whose run is followed by punctuation. -/
theorem tryPunctSpace_none_of_noWsPunct {l : List Char}
    (h : noWsPunct l = true) : tryPunctSpace l = none := by
  match l with
  | [] => rfl
  | c :: cs =>
    simp only [tryPunctSpace]
    by_cases hw : isJsWhitespace c = true
    · rw [if_pos hw]
      have := noWsPunct_dropWhile_head hw h
      cases hd : (c :: cs).dropWhile isJsWhitespace with
      | nil => rfl
      | cons p rest1 =>
        rw [hd] at this
        simp only
        rw [if_neg]
        intro hp
        rw [show headIsPunct (p :: rest1) = isPunct p from rfl, hp] at this
        cases this
    · rw [if_neg hw]

theorem dropWhile_append_of_forall {W y : List Char} {q : Char → Bool}
    (hW : ∀ c ∈ W, q c = true) :
    (W ++ y).dropWhile q = y.dropWhile q := by
  induction W with
  | nil => rfl
  | cons w ws ih =>
    rw [List.cons_append, List.dropWhile_cons,
      if_pos (hW w (List.mem_cons_self w ws))]
    exact ih (fun c hc => hW c (List.mem_cons_of_mem w hc))

theorem head_dropWhile_not_sat {q : Char → Bool} : ∀ (l : List Char) {c : Char},
    (l.dropWhile q).head? = some c → q c = false := by
  intro l
  induction l with
  | nil => intro c h; cases h
  | cons a t ih =>
    intro c h
    rw [List.dropWhile_cons] at h
    by_cases ha : q a = true
    · rw [if_pos ha] at h; exact ih h
    · rw [if_neg ha] at h
      have hac : a = c := by injection h
      subst hac
      exact Bool.eq_false_iff.mpr ha

theorem word_not_ws {c : Char} (h : isWordChar c = true) :
    isJsWhitespace c = false := by
  cases hw : isJsWhitespace c with
  | false => rfl
  | true =>
    exfalso
    simp only [isJsWhitespace, Bool.or_eq_true, decide_eq_true_eq,
      Bool.and_eq_true] at hw
    simp only [isWordChar, isAsciiDigit, Bool.or_eq_true, Bool.and_eq_true,
      decide_eq_true_eq] at h
    rcases hw with (((((((((((((h1 | h1) | h1) | h1) | h1) | h1) | h1) | h1) | ⟨hl, hr⟩) | h1) | h1) | h1) | h1) | h1) | h1
    all_goals
      first
        | (subst h1
           rcases h with ((⟨ha, hb⟩ | ⟨ha, hb⟩) | ⟨ha, hb⟩) | hb <;>
             first
               | exact absurd ha (by decide)
               | exact absurd hb (by decide))
        | (rcases h with ((⟨ha, hb⟩ | ⟨ha, hb⟩) | ⟨ha, hb⟩) | hb <;>
             first
               | exact absurd (le_trans hl hb) (by decide)
               | (subst hb
                  exact absurd hl (by decide)))

theorem ws_not_word {c : Char} (h : isJsWhitespace c = true) :
    isWordChar c = false := by
  cases hw : isWordChar c with
  | false => rfl
  | true => rw [word_not_ws hw] at h; cases h

theorem word_ne_dash {c : Char} (h : isWordChar c = true) : ¬(c = '-') := by
  intro hc
  subst hc
  exact absurd h (by decide)

theorem digit_word {c : Char} (h : isAsciiDigit c = true) :
    isWordChar c = true := by
  simp only [isWordChar, Bool.or_eq_true]
  tauto

theorem digit_not_ws {c : Char} (h : isAsciiDigit c = true) :
    isJsWhitespace c = false := word_not_ws (digit_word h)

/-! ### Islands: word runs chained by dashes, the domain of rules 4 and 5 -/

/-- One dash link of an island: the whitespace on each side of the dash,
and the word run that follows. -/
structure IGap where
  a : List Char
  b : List Char
  R : List Char
  deriving DecidableEq

/-- A word run followed by a chain of dash links. -/
structure Island where
  R0 : List Char
  gaps : List IGap
  deriving DecidableEq

def interpGaps : List IGap → List Char
  | [] => []
  | g :: gs => g.a ++ '-' :: (g.b ++ (g.R ++ interpGaps gs))

def interpIsl (i : Island) : List Char := i.R0 ++ interpGaps i.gaps

def wordRun (l : List Char) : Bool := (!l.isEmpty) && l.all isWordChar

def wsRun (l : List Char) : Bool := l.all isJsWhitespace

def wfGap (g : IGap) : Bool := wsRun g.a && wsRun g.b && wordRun g.R

def wfIsl (i : Island) : Bool := wordRun i.R0 && i.gaps.all wfGap

/-- The dash-tightening rule on an island's links.  The flag records
whether the left-to-right scan can still reach the word character that
precedes the next dash. -/
def islDGaps : Bool → List IGap → List IGap
  | _, [] => []
  | tau, g :: gs =>
    (if tau then ⟨[], [], g.R⟩ else g) ::
      islDGaps ((!tau) || decide (2 ≤ g.R.length)) gs

def islD (i : Island) : Island := ⟨i.R0, islDGaps true i.gaps⟩

def last4digits (R : List Char) : Bool :=
  decide (4 ≤ R.length) && (R.drop (R.length - 4)).all isAsciiDigit

def first4digits (R : List Char) : Bool :=
  decide (4 ≤ R.length) && (R.take 4).all isAsciiDigit

/-- The year-range rule on an island's links: `prevR` is the word run
before the link, `sp` records whether that run's first four characters
were consumed by the previous match. -/
def islYGaps : List Char → Bool → List IGap → List IGap
  | _, _, [] => []
  | prevR, sp, g :: gs =>
    let sigma := last4digits prevR && first4digits g.R &&
      (!sp || decide (8 ≤ prevR.length))
    (if sigma then ⟨[' '], [' '], g.R⟩ else g) :: islYGaps g.R sigma gs

def islY (i : Island) : Island := ⟨i.R0, islYGaps i.R0 false i.gaps⟩

/-- The combined action of the dash and year-range rules on one island. -/
def islW (i : Island) : Island := islY (islD i)

/-- A decomposition piece: a word-free filler or an island. -/
def Piece := List Char ⊕ Island

def interpRep : List Piece → List Char
  | [] => []
  | Sum.inl f :: ps => f ++ interpRep ps
  | Sum.inr i :: ps => interpIsl i ++ interpRep ps

def headIsWord : List Char → Bool
  | c :: _ => isWordChar c
  | [] => false

/-- After an island, the remaining text must not extend the dash chain. -/
def noChain (k : List Char) : Bool :=
  match k.dropWhile isJsWhitespace with
  | d :: r2 =>
    if d = '-' then !headIsWord (r2.dropWhile isJsWhitespace) else true
  | [] => true

def wfRep : List Piece → Bool
  | [] => true
  | Sum.inl f :: ps => f.all (fun c => !isWordChar c) && wfRep ps
  | Sum.inr i :: ps =>
    wfIsl i && noChain (interpRep ps) && (!headIsWord (interpRep ps)) &&
      wfRep ps

def mapIslRep (h : Island → Island) : List Piece → List Piece
  | [] => []
  | Sum.inl f :: ps => Sum.inl f :: mapIslRep h ps
  | Sum.inr i :: ps => Sum.inr (h i) :: mapIslRep h ps

/-! ### Parsing a string into fillers and islands -/

def chainGaps : Nat → List Char → List IGap × List Char
  | 0, l => ([], l)
  | fuel+1, l =>
    match l.dropWhile isJsWhitespace with
    | d :: r2 =>
      if d = '-' then
        let r3 := r2.dropWhile isJsWhitespace
        let R := r3.takeWhile isWordChar
        if R.isEmpty then ([], l)
        else
          let pr := chainGaps fuel (r3.dropWhile isWordChar)
          (⟨l.takeWhile isJsWhitespace, r2.takeWhile isJsWhitespace, R⟩ ::
            pr.1, pr.2)
      else ([], l)
    | [] => ([], l)

def parseRep : Nat → List Char → List Piece
  | 0, _ => []
  | fuel+1, [] => []
  | fuel+1, c :: cs =>
    if isWordChar c then
      let pr := chainGaps (fuel+1) ((c :: cs).dropWhile isWordChar)
      Sum.inr ⟨(c :: cs).takeWhile isWordChar, pr.1⟩ :: parseRep fuel pr.2
    else
      Sum.inl ((c :: cs).takeWhile (fun d => !isWordChar d)) ::
        parseRep fuel ((c :: cs).dropWhile (fun d => !isWordChar d))

theorem chainGaps_interp : ∀ (fuel : Nat) (l : List Char),
    interpGaps (chainGaps fuel l).1 ++ (chainGaps fuel l).2 = l ∧
    (chainGaps fuel l).2.length ≤ l.length := by
  intro fuel
  induction fuel with
  | zero => intro l; exact ⟨rfl, le_rfl⟩
  | succ n ih =>
    intro l
    rw [chainGaps]
    cases hd : l.dropWhile isJsWhitespace with
    | nil => exact ⟨rfl, le_rfl⟩
    | cons d r2 =>
      simp only
      by_cases hdash : d = '-'
      · rw [if_pos hdash]
        by_cases hR : ((r2.dropWhile isJsWhitespace).takeWhile
            isWordChar).isEmpty = true
        · rw [if_pos hR]
          exact ⟨rfl, le_rfl⟩
        · rw [if_neg hR]
          simp only
          obtain ⟨ih1, ih2⟩ := ih ((r2.dropWhile isJsWhitespace).dropWhile
            isWordChar)
          constructor
          · rw [interpGaps, List.append_assoc, List.cons_append,
              List.append_assoc, List.append_assoc, ih1,
              List.takeWhile_append_dropWhile, List.takeWhile_append_dropWhile,
              ← hdash, ← hd, List.takeWhile_append_dropWhile]
          · have h3 : ((r2.dropWhile isJsWhitespace).dropWhile
                isWordChar).length ≤ r2.length :=
              le_trans (List.dropWhile_suffix _).length_le
                (List.dropWhile_suffix _).length_le
            have h4 : (d :: r2).length ≤ l.length := by
              rw [← hd]
              exact (List.dropWhile_suffix _).length_le
            simp only [List.length_cons] at h4
            omega
      · rw [if_neg hdash]
        exact ⟨rfl, le_rfl⟩

theorem chainGaps_stop : ∀ (fuel : Nat) (l : List Char), l.length ≤ fuel →
    headIsWord l = false →
    noChain (chainGaps fuel l).2 = true ∧
    headIsWord (chainGaps fuel l).2 = false := by
  intro fuel
  induction fuel with
  | zero =>
    intro l hl hw
    have h0 : l = [] := List.length_eq_zero.mp (Nat.le_zero.mp hl)
    subst h0
    exact ⟨rfl, rfl⟩
  | succ n ih =>
    intro l hl hw
    rw [chainGaps]
    cases hd : l.dropWhile isJsWhitespace with
    | nil =>
      refine ⟨?_, hw⟩
      simp only [noChain]
      rw [hd]
    | cons d r2 =>
      simp only
      by_cases hdash : d = '-'
      · rw [if_pos hdash]
        by_cases hR : ((r2.dropWhile isJsWhitespace).takeWhile
            isWordChar).isEmpty = true
        · rw [if_pos hR]
          refine ⟨?_, hw⟩
          simp only [noChain]
          rw [hd]
          simp only
          rw [if_pos hdash]
          cases hr3 : r2.dropWhile isJsWhitespace with
          | nil => rfl
          | cons x xs =>
            rw [hr3] at hR
            rw [List.takeWhile_cons] at hR
            by_cases hx : isWordChar x = true
            · rw [if_pos hx] at hR
              cases hR
            · show (!headIsWord (x :: xs)) = true
              simp [headIsWord, hx]
        · rw [if_neg hR]
          simp only
          apply ih
          · have h3 : ((r2.dropWhile isJsWhitespace).dropWhile
                isWordChar).length ≤ r2.length :=
              le_trans (List.dropWhile_suffix _).length_le
                (List.dropWhile_suffix _).length_le
            have h4 : (d :: r2).length ≤ l.length := by
              rw [← hd]
              exact (List.dropWhile_suffix _).length_le
            simp only [List.length_cons] at h4
            omega
          · cases hX : (r2.dropWhile isJsWhitespace).dropWhile isWordChar with
            | nil => rfl
            | cons y ys =>
              show isWordChar y = false
              exact head_dropWhile_not_sat _ (by rw [hX]; rfl)
      · rw [if_neg hdash]
        refine ⟨?_, hw⟩
        simp only [noChain]
        rw [hd]
        simp only
        rw [if_neg hdash]

theorem chainGaps_wf : ∀ (fuel : Nat) (l : List Char),
    (chainGaps fuel l).1.all wfGap = true := by
  intro fuel
  induction fuel with
  | zero => intro l; rfl
  | succ n ih =>
    intro l
    rw [chainGaps]
    cases hd : l.dropWhile isJsWhitespace with
    | nil => rfl
    | cons d r2 =>
      simp only
      by_cases hdash : d = '-'
      · rw [if_pos hdash]
        by_cases hR : ((r2.dropWhile isJsWhitespace).takeWhile
            isWordChar).isEmpty = true
        · rw [if_pos hR]
          rfl
        · rw [if_neg hR]
          simp only [List.all_cons, Bool.and_eq_true]
          refine ⟨?_, ih _⟩
          simp only [wfGap, wsRun, wordRun, Bool.and_eq_true]
          refine ⟨⟨List.all_eq_true.mpr (fun c hc => mem_takeWhile_sat hc),
            List.all_eq_true.mpr (fun c hc => mem_takeWhile_sat hc)⟩, ?_, ?_⟩
          · simp only [Bool.not_eq_true']
            cases hE : ((r2.dropWhile isJsWhitespace).takeWhile
                isWordChar).isEmpty with
            | false => rfl
            | true => exact absurd hE hR
          · exact List.all_eq_true.mpr (fun c hc => mem_takeWhile_sat hc)
      · rw [if_neg hdash]
        rfl

theorem parseRep_spec : ∀ (fuel : Nat) (l : List Char), l.length ≤ fuel →
    interpRep (parseRep fuel l) = l ∧ wfRep (parseRep fuel l) = true := by
  intro fuel
  induction fuel with
  | zero =>
    intro l hl
    have h0 : l = [] := List.length_eq_zero.mp (Nat.le_zero.mp hl)
    subst h0
    exact ⟨rfl, rfl⟩
  | succ n ih =>
    intro l hl
    match l with
    | [] => exact ⟨rfl, rfl⟩
    | c :: cs =>
      simp only [List.length_cons] at hl
      rw [parseRep]
      by_cases hc : isWordChar c = true
      · rw [if_pos hc]
        simp only
        have hdw : (c :: cs).dropWhile isWordChar = cs.dropWhile isWordChar := by
          rw [List.dropWhile_cons, if_pos hc]
        have hlen2 : (chainGaps (n+1) ((c :: cs).dropWhile isWordChar)).2.length
            ≤ cs.length := by
          have h5 := (chainGaps_interp (n+1) ((c :: cs).dropWhile isWordChar)).2
          have h6 : ((c :: cs).dropWhile isWordChar).length ≤ cs.length := by
            rw [hdw]
            exact (List.dropWhile_suffix _).length_le
          omega
        obtain ⟨ihi, ihw⟩ := ih _ (le_trans hlen2 (by omega))
        constructor
        · rw [interpRep, ihi, interpIsl]
          simp only
          rw [List.append_assoc, (chainGaps_interp (n+1) _).1,
            List.takeWhile_append_dropWhile]
        · have hstop := chainGaps_stop (n+1) ((c :: cs).dropWhile isWordChar)
            (by
              have h6 : ((c :: cs).dropWhile isWordChar).length ≤ cs.length := by
                rw [hdw]
                exact (List.dropWhile_suffix _).length_le
              omega)
            (by
              cases hX : (c :: cs).dropWhile isWordChar with
              | nil => rfl
              | cons y ys =>
                show isWordChar y = false
                exact head_dropWhile_not_sat _ (by rw [hX]; rfl))
          rw [wfRep]
          simp only [Bool.and_eq_true]
          refine ⟨⟨⟨?_, ?_⟩, ?_⟩, ihw⟩
          · simp only [wfIsl, wordRun, Bool.and_eq_true]
            refine ⟨⟨?_, ?_⟩, chainGaps_wf _ _⟩
            · rw [List.takeWhile_cons, if_pos hc]
              rfl
            · exact List.all_eq_true.mpr (fun x hx => mem_takeWhile_sat hx)
          · rw [ihi]
            exact hstop.1
          · rw [ihi]
            simp only [Bool.not_eq_true']
            exact hstop.2
      · rw [if_neg hc]
        have hdw : (c :: cs).dropWhile (fun d => !isWordChar d) =
            cs.dropWhile (fun d => !isWordChar d) := by
          rw [List.dropWhile_cons, if_pos (by simp [hc])]
        have hlen2 : ((c :: cs).dropWhile (fun d => !isWordChar d)).length ≤
            cs.length := by
          rw [hdw]
          exact (List.dropWhile_suffix _).length_le
        obtain ⟨ihi, ihw⟩ := ih _ (le_trans hlen2 (by omega))
        constructor
        · rw [interpRep, ihi, List.takeWhile_append_dropWhile]
        · rw [wfRep]
          simp only [Bool.and_eq_true]
          exact ⟨List.all_eq_true.mpr (fun x hx => mem_takeWhile_sat hx), ihw⟩

/-! ### Simulation of the dash-tightening rule on the decomposition -/

theorem runRepl_append_none (f : Matcher) (hf : Shrinks f) :
    ∀ (X k : List Char), (∀ n, n < X.length → f (X.drop n ++ k) = none) →
      runRepl f (X ++ k) = X ++ runRepl f k := by
  intro X
  induction X with
  | nil => intro k _; rfl
  | cons x X' ih =>
    intro k h
    rw [List.cons_append, runRepl_cons _ hf]
    have h0 := h 0 (by simp)
    rw [List.drop_zero, List.cons_append] at h0
    rw [h0]
    simp only
    rw [ih k (fun n hn => by
      have h2 := h (n+1) (by simp only [List.length_cons]; omega)
      rwa [List.drop_succ_cons] at h2), List.cons_append]

theorem wordRun_ne_nil {R : List Char} (h : wordRun R = true) : R ≠ [] := by
  intro h0
  subst h0
  cases h

theorem wordRun_all {R : List Char} (h : wordRun R = true) :
    ∀ c ∈ R, isWordChar c = true := by
  simp only [wordRun, Bool.and_eq_true] at h
  exact List.all_eq_true.mp h.2

theorem tryDash_none_of_head {c : Char} {k : List Char}
    (h : isWordChar c = false) : tryDash (c :: k) = none := by
  simp only [tryDash]
  rw [if_neg (by simp [h])]

theorem tryDash_none_of_next_word {w c2 : Char} {k : List Char}
    (h2 : isWordChar c2 = true) : tryDash (w :: c2 :: k) = none := by
  simp only [tryDash]
  by_cases hw : isWordChar w = true
  · rw [if_pos hw, List.dropWhile_cons, if_neg (by simp [word_not_ws h2])]
    simp only
    rw [if_neg (word_ne_dash h2)]
  · rw [if_neg hw]

theorem tryDash_none_of_noChain {w : Char} {k : List Char}
    (hk : noChain k = true) : tryDash (w :: k) = none := by
  simp only [tryDash]
  by_cases hw : isWordChar w = true
  · rw [if_pos hw]
    simp only [noChain] at hk
    cases hd : k.dropWhile isJsWhitespace with
    | nil => rfl
    | cons d r2 =>
      rw [hd] at hk
      simp only at hk
      simp only
      by_cases hdash : d = '-'
      · rw [if_pos hdash] at hk
        rw [if_pos hdash]
        cases hr : r2.dropWhile isJsWhitespace with
        | nil => rfl
        | cons w2 rr =>
          rw [hr] at hk
          simp only
          have hw2 : isWordChar w2 = false := by
            rw [show headIsWord (w2 :: rr) = isWordChar w2 from rfl] at hk
            cases hx : isWordChar w2 with
            | false => rfl
            | true => rw [hx] at hk; cases hk
          rw [if_neg (by simp [hw2])]
      · rw [if_neg hdash] at hk ⊢
  · rw [if_neg hw]

theorem tryDash_fire {w w2 : Char} {a b RZ : List Char}
    (hw : isWordChar w = true) (ha : wsRun a = true) (hb : wsRun b = true)
    (hw2 : isWordChar w2 = true) :
    tryDash (w :: (a ++ '-' :: (b ++ w2 :: RZ))) = some ([w, '-', w2], RZ) := by
  simp only [tryDash]
  rw [if_pos hw]
  have h1 : (a ++ '-' :: (b ++ w2 :: RZ)).dropWhile isJsWhitespace =
      '-' :: (b ++ w2 :: RZ) := by
    rw [dropWhile_append_of_forall (List.all_eq_true.mp ha),
      List.dropWhile_cons, if_neg (by decide)]
  rw [h1]
  simp only
  rw [if_pos trivial]
  have h2 : (b ++ w2 :: RZ).dropWhile isJsWhitespace = w2 :: RZ := by
    rw [dropWhile_append_of_forall (List.all_eq_true.mp hb),
      List.dropWhile_cons, if_neg (by simp [word_not_ws hw2])]
  rw [h2]
  simp only
  rw [if_pos hw2]

theorem runRepl_dash_nonword (F k : List Char)
    (hF : ∀ c ∈ F, isWordChar c = false) :
    runRepl tryDash (F ++ k) = F ++ runRepl tryDash k := by
  apply runRepl_append_none _ tryDash_tame.shrinks
  intro n hn
  cases hdrop : F.drop n with
  | nil =>
    have hlen := List.length_drop n F
    rw [hdrop] at hlen
    simp only [List.length_nil] at hlen
    omega
  | cons y ys =>
    have hy : y ∈ F := List.drop_subset n F
      (by rw [hdrop]; exact List.mem_cons_self y ys)
    rw [List.cons_append]
    exact tryDash_none_of_head (hF y hy)

theorem runRepl_dash_wordrun (R' k : List Char)
    (hall : ∀ c ∈ R', isWordChar c = true) (hk : noChain k = true) :
    runRepl tryDash (R' ++ k) = R' ++ runRepl tryDash k := by
  apply runRepl_append_none _ tryDash_tame.shrinks
  intro n hn
  cases hdrop : R'.drop n with
  | nil =>
    have hlen := List.length_drop n R'
    rw [hdrop] at hlen
    simp only [List.length_nil] at hlen
    omega
  | cons y ys =>
    cases ys with
    | nil =>
      simp only [List.cons_append, List.nil_append]
      exact tryDash_none_of_noChain hk
    | cons y2 ys' =>
      have hy2 : y2 ∈ R' := List.drop_subset n R'
        (by rw [hdrop]; exact List.mem_cons_of_mem _ (List.mem_cons_self _ _))
      simp only [List.cons_append]
      exact tryDash_none_of_next_word (hall y2 hy2)

/-- One pass of the dash-tightening scan over the links of an island,
entered with the word run `R'` still unread (empty when the previous
match consumed the run's only character). -/
theorem D_gaps : ∀ (gs : List IGap) (R' k : List Char),
    (∀ c ∈ R', isWordChar c = true) → gs.all wfGap = true → noChain k = true →
    runRepl tryDash (R' ++ (interpGaps gs ++ k)) =
      R' ++ (interpGaps (islDGaps (!R'.isEmpty) gs) ++ runRepl tryDash k) := by
  intro gs
  induction gs with
  | nil =>
    intro R' k hall _ hk
    simp only [interpGaps, islDGaps, List.nil_append]
    exact runRepl_dash_wordrun R' k hall hk
  | cons g gs' ih =>
    intro R' k hall hgs hk
    have hg : wfGap g = true := by
      simp only [List.all_cons, Bool.and_eq_true] at hgs; exact hgs.1
    have hgs' : gs'.all wfGap = true := by
      simp only [List.all_cons, Bool.and_eq_true] at hgs; exact hgs.2
    have hwf := hg
    simp only [wfGap, Bool.and_eq_true] at hwf
    obtain ⟨⟨ha, hb⟩, hgR⟩ := hwf
    obtain ⟨w2, Rt, hGR⟩ : ∃ w2 Rt, g.R = w2 :: Rt := by
      cases hcase : g.R with
      | nil => rw [hcase] at hgR; cases hgR
      | cons w2 Rt => exact ⟨w2, Rt, rfl⟩
    have hw2 : isWordChar w2 = true := by
      apply wordRun_all hgR
      rw [hGR]; exact List.mem_cons_self _ _
    cases R' with
    | nil =>
      simp only [List.isEmpty_nil, Bool.not_true, List.nil_append]
      have hD : islDGaps false (g :: gs') = g :: islDGaps true gs' := by
        simp [islDGaps]
      rw [hD]
      have hshape : interpGaps (g :: gs') ++ k =
          (g.a ++ '-' :: g.b) ++ (g.R ++ (interpGaps gs' ++ k)) := by
        simp [interpGaps, List.append_assoc]
      rw [hshape]
      have hnw : ∀ c ∈ g.a ++ '-' :: g.b, isWordChar c = false := by
        intro c hc
        rcases List.mem_append.mp hc with hca | hcb
        · exact ws_not_word (List.all_eq_true.mp ha c hca)
        · rcases List.mem_cons.mp hcb with hceq | hcb2
          · subst hceq; decide
          · exact ws_not_word (List.all_eq_true.mp hb c hcb2)
      rw [runRepl_dash_nonword _ _ hnw]
      rw [ih g.R k (wordRun_all hgR) hgs' hk]
      have hne : (!g.R.isEmpty) = true := by rw [hGR]; rfl
      rw [hne]
      simp [interpGaps, List.append_assoc]
    | cons y ys =>
      simp only [List.isEmpty_cons, Bool.not_false]
      have hDtrue : islDGaps true (g :: gs') =
          ⟨[], [], g.R⟩ :: islDGaps (decide (2 ≤ g.R.length)) gs' := by
        simp [islDGaps]
      rw [hDtrue]
      have hne : y :: ys ≠ [] := List.cons_ne_nil y ys
      have hsplit : (y :: ys).dropLast ++ [(y :: ys).getLast hne] = y :: ys :=
        List.dropLast_append_getLast hne
      have hz : isWordChar ((y :: ys).getLast hne) = true :=
        hall _ (List.getLast_mem hne)
      have halld : ∀ c ∈ (y :: ys).dropLast, isWordChar c = true := fun c hc =>
        hall c ((List.dropLast_sublist _).subset hc)
      rw [← hsplit]
      simp only [List.append_assoc, List.singleton_append]
      have hwalk : runRepl tryDash ((y :: ys).dropLast ++
            ((y :: ys).getLast hne :: (interpGaps (g :: gs') ++ k))) =
          (y :: ys).dropLast ++
            runRepl tryDash ((y :: ys).getLast hne :: (interpGaps (g :: gs') ++ k)) := by
        apply runRepl_append_none _ tryDash_tame.shrinks
        intro n hn
        cases hdrop : (y :: ys).dropLast.drop n with
        | nil =>
          have hlen := List.length_drop n (y :: ys).dropLast
          rw [hdrop] at hlen
          simp only [List.length_nil] at hlen
          omega
        | cons u us =>
          cases us with
          | nil =>
            simp only [List.cons_append, List.nil_append]
            exact tryDash_none_of_next_word hz
          | cons u2 us' =>
            have hu2 : u2 ∈ (y :: ys).dropLast := List.drop_subset n _
              (by rw [hdrop]; exact List.mem_cons_of_mem _ (List.mem_cons_self _ _))
            simp only [List.cons_append]
            exact tryDash_none_of_next_word (halld u2 hu2)
      rw [hwalk, runRepl_cons _ tryDash_tame.shrinks]
      have hshape : interpGaps (g :: gs') ++ k =
          g.a ++ '-' :: (g.b ++ w2 :: (Rt ++ (interpGaps gs' ++ k))) := by
        simp [interpGaps, hGR, List.append_assoc]
      rw [hshape, tryDash_fire hz ha hb hw2]
      simp only
      rw [ih Rt k (fun c hc => wordRun_all hgR c
        (by rw [hGR]; exact List.mem_cons_of_mem _ hc)) hgs' hk]
      have hflag : (!Rt.isEmpty) = decide (2 ≤ g.R.length) := by
        rw [hGR]
        cases Rt with
        | nil => rfl
        | cons r rs =>
          simp only [List.isEmpty_cons, Bool.not_false, List.length_cons]
          exact (decide_eq_true (by omega)).symm
      rw [hflag]
      simp [interpGaps, hGR, List.append_assoc]

/-- The dash-tightening rule acts on a well-formed decomposition by
transforming each island with `islD` and leaving fillers unchanged. -/
theorem D_interpRep : ∀ (ps : List Piece), wfRep ps = true →
    replaceDashTighten (interpRep ps) = interpRep (mapIslRep islD ps) := by
  intro ps
  induction ps with
  | nil => intro _; rfl
  | cons p ps' ih =>
    intro hwf
    cases p with
    | inl f =>
      simp only [wfRep, Bool.and_eq_true] at hwf
      simp only [interpRep, mapIslRep]
      rw [show replaceDashTighten (f ++ interpRep ps') =
          runRepl tryDash (f ++ interpRep ps') from rfl]
      rw [runRepl_dash_nonword f _ (by
        intro c hc
        have := List.all_eq_true.mp hwf.1 c hc
        simpa using this)]
      have ih' : runRepl tryDash (interpRep ps') =
          interpRep (mapIslRep islD ps') := ih hwf.2
      rw [ih']
    | inr i =>
      simp only [wfRep, Bool.and_eq_true] at hwf
      obtain ⟨⟨⟨hisl, hnc⟩, _⟩, hps'⟩ := hwf
      simp only [wfIsl, Bool.and_eq_true] at hisl
      simp only [interpRep, mapIslRep, interpIsl, islD]
      rw [show replaceDashTighten (i.R0 ++ interpGaps i.gaps ++ interpRep ps') =
          runRepl tryDash (i.R0 ++ (interpGaps i.gaps ++ interpRep ps')) by
        simp [replaceDashTighten, List.append_assoc]]
      rw [D_gaps i.gaps i.R0 (interpRep ps') (wordRun_all hisl.1) hisl.2 hnc]
      have hne : (!i.R0.isEmpty) = true := by
        have := wordRun_ne_nil hisl.1
        cases hcase : i.R0 with
        | nil => exact absurd hcase this
        | cons c cs => rfl
      have ih' : runRepl tryDash (interpRep ps') =
          interpRep (mapIslRep islD ps') := ih hps'
      rw [hne, ih']
      simp [List.append_assoc]

/-! ### Simulation of the year-range rule on the decomposition -/

theorem ws_not_digit {c : Char} (h : isJsWhitespace c = true) :
    isAsciiDigit c = false := by
  cases hd : isAsciiDigit c with
  | false => rfl
  | true => rw [digit_not_ws hd] at h; cases h

theorem exists_four {α : Type} : ∀ (l : List α), l.length = 4 →
    ∃ a b c d, l = [a, b, c, d] := by
  intro l h
  match l with
  | [] => simp only [List.length_nil] at h; omega
  | [_] => simp only [List.length_cons, List.length_nil] at h; omega
  | [_, _] => simp only [List.length_cons, List.length_nil] at h; omega
  | [_, _, _] => simp only [List.length_cons, List.length_nil] at h; omega
  | [a, b, c, d] => exact ⟨a, b, c, d, rfl⟩
  | _ :: _ :: _ :: _ :: _ :: _ =>
    simp only [List.length_cons] at h
    omega

theorem tryYearRange_none_of_take4 : ∀ (l : List Char),
    (l.take 4).all isAsciiDigit = false → tryYearRange l = none := by
  intro l h
  match l with
  | [] => rfl
  | [_] => rfl
  | [_, _] => rfl
  | [_, _, _] => rfl
  | a :: b :: c :: d :: r =>
    simp only [tryYearRange]
    have hng : ¬((isAsciiDigit a && isAsciiDigit b && isAsciiDigit c &&
        isAsciiDigit d) = true) := by
      intro hg
      have ht : (a :: b :: c :: d :: r).take 4 = [a, b, c, d] := rfl
      rw [ht] at h
      simp only [Bool.and_eq_true] at hg
      rw [List.all_cons, List.all_cons, List.all_cons, List.all_cons,
        List.all_nil, hg.1.1.1, hg.1.1.2, hg.1.2, hg.2] at h
      exact absurd h (by decide)
    rw [if_neg hng]

theorem tryYearRange_none_word5 {x1 x2 x3 x4 x5 : Char} {m : List Char}
    (h : isWordChar x5 = true) :
    tryYearRange (x1 :: x2 :: x3 :: x4 :: x5 :: m) = none := by
  simp only [tryYearRange]
  by_cases hg : (isAsciiDigit x1 && isAsciiDigit x2 && isAsciiDigit x3 &&
      isAsciiDigit x4) = true
  · rw [if_pos hg, List.dropWhile_cons, if_neg (by simp [word_not_ws h])]
    simp only
    rw [if_neg (word_ne_dash h)]
  · rw [if_neg hg]

theorem tryYearRange_none_long_run : ∀ (u m : List Char),
    (∀ c ∈ u, isWordChar c = true) → 5 ≤ u.length →
    tryYearRange (u ++ m) = none := by
  intro u m hu h5
  match u with
  | [] => simp only [List.length_nil] at h5; omega
  | [_] => simp only [List.length_cons, List.length_nil] at h5; omega
  | [_, _] => simp only [List.length_cons, List.length_nil] at h5; omega
  | [_, _, _] => simp only [List.length_cons, List.length_nil] at h5; omega
  | [_, _, _, _] => simp only [List.length_cons, List.length_nil] at h5; omega
  | x1 :: x2 :: x3 :: x4 :: x5 :: u2 =>
    simp only [List.cons_append]
    exact tryYearRange_none_word5 (hu x5 (by simp))

theorem tryYearRange_none_short : ∀ (l : List Char), l.length ≤ 3 →
    tryYearRange l = none := by
  intro l h
  match l with
  | [] => rfl
  | [_] => rfl
  | [_, _] => rfl
  | [_, _, _] => rfl
  | a :: b :: c :: d :: r =>
    exact absurd h (by simp only [List.length_cons]; omega)

theorem tryYearRange_none_of_noChain {a b c d : Char} {k : List Char}
    (hk : noChain k = true) : tryYearRange (a :: b :: c :: d :: k) = none := by
  simp only [tryYearRange]
  by_cases hg : (isAsciiDigit a && isAsciiDigit b && isAsciiDigit c &&
      isAsciiDigit d) = true
  · rw [if_pos hg]
    simp only [noChain] at hk
    cases hd : k.dropWhile isJsWhitespace with
    | nil => rfl
    | cons x r2 =>
      rw [hd] at hk
      simp only at hk
      simp only
      by_cases hdash : x = '-'
      · rw [if_pos hdash] at hk
        rw [if_pos hdash]
        cases hr : r2.dropWhile isJsWhitespace with
        | nil => rfl
        | cons e1 rr =>
          rw [hr] at hk
          have he1 : isWordChar e1 = false := by
            rw [show headIsWord (e1 :: rr) = isWordChar e1 from rfl] at hk
            cases hx : isWordChar e1 with
            | false => rfl
            | true => rw [hx] at hk; cases hk
          have he1d : isAsciiDigit e1 = false := by
            cases hx : isAsciiDigit e1 with
            | false => rfl
            | true => rw [digit_word hx] at he1; cases he1
          cases rr with
          | nil => rfl
          | cons e2 rr2 =>
            cases rr2 with
            | nil => rfl
            | cons e3 rr3 =>
              cases rr3 with
              | nil => rfl
              | cons e4 rr4 =>
                simp only
                rw [if_neg (by
                  intro hge
                  simp only [Bool.and_eq_true] at hge
                  rw [hge.1.1.1] at he1d
                  cases he1d)]
      · rw [if_neg hdash] at hk ⊢
  · rw [if_neg hg]

theorem tryYearRange_none_boundary {w1 w2 w3 w4 : Char} {a b R rest : List Char}
    (ha : wsRun a = true) (hb : wsRun b = true) (hR : wordRun R = true)
    (hf4 : first4digits R = false)
    (hrest : ∀ c, rest.head? = some c → isAsciiDigit c = false) :
    tryYearRange (w1 :: w2 :: w3 :: w4 :: (a ++ '-' :: (b ++ (R ++ rest)))) =
      none := by
  simp only [tryYearRange]
  by_cases hg : (isAsciiDigit w1 && isAsciiDigit w2 && isAsciiDigit w3 &&
      isAsciiDigit w4) = true
  · rw [if_pos hg]
    have h1 : (a ++ '-' :: (b ++ (R ++ rest))).dropWhile isJsWhitespace =
        '-' :: (b ++ (R ++ rest)) := by
      rw [dropWhile_append_of_forall (List.all_eq_true.mp ha),
        List.dropWhile_cons, if_neg (by decide)]
    rw [h1]
    simp only
    rw [if_pos trivial]
    obtain ⟨r1, R1, hR1⟩ : ∃ r1 R1, R = r1 :: R1 := by
      cases hc : R with
      | nil => rw [hc] at hR; cases hR
      | cons r1 R1 => exact ⟨r1, R1, rfl⟩
    have hw : ∀ c ∈ R, isWordChar c = true := wordRun_all hR
    subst hR1
    have hr1w : isWordChar r1 = true := hw r1 (List.mem_cons_self _ _)
    have h2 : (b ++ ((r1 :: R1) ++ rest)).dropWhile isJsWhitespace =
        r1 :: (R1 ++ rest) := by
      rw [List.cons_append, dropWhile_append_of_forall (List.all_eq_true.mp hb),
        List.dropWhile_cons, if_neg (by simp [word_not_ws hr1w])]
    rw [h2]
    cases R1 with
    | nil =>
      simp only [List.nil_append]
      cases rest with
      | nil => rfl
      | cons c1 rest1 =>
        have hc1 : isAsciiDigit c1 = false := hrest c1 rfl
        cases rest1 with
        | nil => rfl
        | cons c2 rest2 =>
          cases rest2 with
          | nil => rfl
          | cons c3 rest3 =>
            simp only
            rw [if_neg (by
              intro hge
              simp only [Bool.and_eq_true] at hge
              rw [hge.1.1.2] at hc1
              cases hc1)]
    | cons r2 R2 =>
      cases R2 with
      | nil =>
        simp only [List.cons_append, List.nil_append]
        cases rest with
        | nil => rfl
        | cons c1 rest1 =>
          have hc1 : isAsciiDigit c1 = false := hrest c1 rfl
          cases rest1 with
          | nil => rfl
          | cons c2 rest2 =>
            simp only
            rw [if_neg (by
              intro hge
              simp only [Bool.and_eq_true] at hge
              rw [hge.1.2] at hc1
              cases hc1)]
      | cons r3 R3 =>
        cases R3 with
        | nil =>
          simp only [List.cons_append, List.nil_append]
          cases rest with
          | nil => rfl
          | cons c1 rest1 =>
            have hc1 : isAsciiDigit c1 = false := hrest c1 rfl
            simp only
            rw [if_neg (by
              intro hge
              simp only [Bool.and_eq_true] at hge
              rw [hge.2] at hc1
              cases hc1)]
        | cons r4 R4 =>
          simp only [List.cons_append]
          rw [if_neg (by
            intro hge
            simp only [Bool.and_eq_true] at hge
            have h4 : first4digits (r1 :: r2 :: r3 :: r4 :: R4) = true := by
              simp only [first4digits]
              rw [decide_eq_true (by simp only [List.length_cons]; omega)]
              have ht : (r1 :: r2 :: r3 :: r4 :: R4).take 4 = [r1, r2, r3, r4] :=
                rfl
              rw [ht]
              simp [hge.1.1.1, hge.1.1.2, hge.1.2, hge.2]
            rw [h4] at hf4
            cases hf4)]
  · rw [if_neg hg]

theorem tryYearRange_fire {w1 w2 w3 w4 e1 e2 e3 e4 : Char} {a b RZ : List Char}
    (hw : (isAsciiDigit w1 && isAsciiDigit w2 && isAsciiDigit w3 &&
      isAsciiDigit w4) = true)
    (he : (isAsciiDigit e1 && isAsciiDigit e2 && isAsciiDigit e3 &&
      isAsciiDigit e4) = true)
    (ha : wsRun a = true) (hb : wsRun b = true) :
    tryYearRange
        (w1 :: w2 :: w3 :: w4 :: (a ++ '-' :: (b ++ e1 :: e2 :: e3 :: e4 :: RZ))) =
      some ([w1, w2, w3, w4, ' ', '-', ' ', e1, e2, e3, e4], RZ) := by
  simp only [tryYearRange]
  rw [if_pos hw]
  have h1 : (a ++ '-' :: (b ++ e1 :: e2 :: e3 :: e4 :: RZ)).dropWhile
      isJsWhitespace = '-' :: (b ++ e1 :: e2 :: e3 :: e4 :: RZ) := by
    rw [dropWhile_append_of_forall (List.all_eq_true.mp ha),
      List.dropWhile_cons, if_neg (by decide)]
  rw [h1]
  simp only
  rw [if_pos trivial]
  have he1 : isAsciiDigit e1 = true := by
    simp only [Bool.and_eq_true] at he
    exact he.1.1.1
  have h2 : (b ++ e1 :: e2 :: e3 :: e4 :: RZ).dropWhile isJsWhitespace =
      e1 :: e2 :: e3 :: e4 :: RZ := by
    rw [dropWhile_append_of_forall (List.all_eq_true.mp hb),
      List.dropWhile_cons, if_neg (by simp [word_not_ws (digit_word he1)])]
  rw [h2]
  simp only
  rw [if_pos he]

theorem take4_all_false_cons {c : Char} {m : List Char}
    (hc : isAsciiDigit c = false) :
    ((c :: m).take 4).all isAsciiDigit = false := by
  show (c :: m.take 3).all isAsciiDigit = false
  simp [hc]

theorem take4_all_false_append : ∀ (s : List Char) {c : Char} (cont2 : List Char),
    s.length ≤ 3 → isAsciiDigit c = false →
    ((s ++ c :: cont2).take 4).all isAsciiDigit = false := by
  intro s c cont2 hs hc
  match s with
  | [] => exact take4_all_false_cons hc
  | [x] =>
    show (x :: c :: cont2.take 2).all isAsciiDigit = false
    simp [hc]
  | [x, y] =>
    show (x :: y :: c :: cont2.take 1).all isAsciiDigit = false
    simp [hc]
  | [x, y, z] =>
    show (x :: y :: z :: c :: cont2.take 0).all isAsciiDigit = false
    simp [hc]
  | _ :: _ :: _ :: _ :: _ =>
    exact absurd hs (by simp only [List.length_cons]; omega)

theorem runRepl_year_nondigit (F k : List Char)
    (hF : ∀ c ∈ F, isAsciiDigit c = false) :
    runRepl tryYearRange (F ++ k) = F ++ runRepl tryYearRange k := by
  apply runRepl_append_none _ tryYearRange_tame.shrinks
  intro n hn
  cases hdrop : F.drop n with
  | nil =>
    have hlen := List.length_drop n F
    rw [hdrop] at hlen
    simp only [List.length_nil] at hlen
    omega
  | cons y ys =>
    have hy : y ∈ F := List.drop_subset n F
      (by rw [hdrop]; exact List.mem_cons_self y ys)
    rw [List.cons_append]
    exact tryYearRange_none_of_take4 _ (take4_all_false_cons (hF y hy))

theorem runRepl_year_wordrun (Rm k : List Char)
    (hall : ∀ c ∈ Rm, isWordChar c = true) (hk : noChain k = true)
    (hkh : headIsWord k = false) :
    runRepl tryYearRange (Rm ++ k) = Rm ++ runRepl tryYearRange k := by
  have hkd : ∀ c1 k1, k = c1 :: k1 → isAsciiDigit c1 = false := by
    intro c1 k1 hke
    rw [hke] at hkh
    have hc1 : isWordChar c1 = false := hkh
    cases hx : isAsciiDigit c1 with
    | false => rfl
    | true => rw [digit_word hx] at hc1; cases hc1
  apply runRepl_append_none _ tryYearRange_tame.shrinks
  intro n hn
  cases hdrop : Rm.drop n with
  | nil =>
    have hlen := List.length_drop n Rm
    rw [hdrop] at hlen
    simp only [List.length_nil] at hlen
    omega
  | cons y ys =>
    have hsub : ∀ c ∈ y :: ys, isWordChar c = true := fun c hc =>
      hall c (List.drop_subset n Rm (by rw [hdrop]; exact hc))
    by_cases h5 : 5 ≤ (y :: ys).length
    · exact tryYearRange_none_long_run _ _ hsub h5
    · cases ys with
      | nil =>
        cases k with
        | nil => exact tryYearRange_none_short _ (by simp)
        | cons c1 k1 =>
          exact tryYearRange_none_of_take4 _
            (take4_all_false_append [y] k1 (by simp) (hkd c1 k1 rfl))
      | cons y2 ys2 =>
        cases ys2 with
        | nil =>
          cases k with
          | nil => exact tryYearRange_none_short _ (by simp)
          | cons c1 k1 =>
            exact tryYearRange_none_of_take4 _
              (take4_all_false_append [y, y2] k1 (by simp) (hkd c1 k1 rfl))
        | cons y3 ys3 =>
          cases ys3 with
          | nil =>
            cases k with
            | nil => exact tryYearRange_none_short _ (by simp)
            | cons c1 k1 =>
              exact tryYearRange_none_of_take4 _
                (take4_all_false_append [y, y2, y3] k1 (by simp) (hkd c1 k1 rfl))
          | cons y4 ys4 =>
            cases ys4 with
            | nil =>
              simp only [List.cons_append, List.nil_append]
              exact tryYearRange_none_of_noChain hk
            | cons y5 ys5 =>
              exact absurd (by simp only [List.length_cons]; omega :
                5 ≤ (y :: y2 :: y3 :: y4 :: y5 :: ys5).length) h5

theorem last4digits_drop4 (R : List Char) :
    last4digits (R.drop 4) = (last4digits R && decide (8 ≤ R.length)) := by
  simp only [last4digits, List.length_drop]
  by_cases h8 : 8 ≤ R.length
  · rw [decide_eq_true (show 4 ≤ R.length - 4 by omega),
      decide_eq_true h8, decide_eq_true (show 4 ≤ R.length by omega)]
    simp only [Bool.true_and, Bool.and_true]
    rw [List.drop_drop]
    have hidx : 4 + (R.length - 4 - 4) = R.length - 4 := by omega
    rw [hidx]
  · rw [decide_eq_false (show ¬(4 ≤ R.length - 4) by omega),
      decide_eq_false h8]
    simp

/-- The year-range scan walks through a word run followed by a dash link
that does not fire. -/
theorem runRepl_year_run_gap (Rm a b R rest : List Char)
    (hallm : ∀ c ∈ Rm, isWordChar c = true)
    (ha : wsRun a = true) (hb : wsRun b = true) (hR : wordRun R = true)
    (hfire : (last4digits Rm && first4digits R) = false)
    (hrest : ∀ c, rest.head? = some c → isAsciiDigit c = false) :
    runRepl tryYearRange (Rm ++ (a ++ '-' :: (b ++ (R ++ rest)))) =
      Rm ++ runRepl tryYearRange (a ++ '-' :: (b ++ (R ++ rest))) := by
  apply runRepl_append_none _ tryYearRange_tame.shrinks
  intro n hn
  have hlen := List.length_drop n Rm
  cases hdrop : Rm.drop n with
  | nil =>
    rw [hdrop] at hlen
    simp only [List.length_nil] at hlen
    omega
  | cons y ys =>
    have hsub : ∀ c ∈ y :: ys, isWordChar c = true := fun c hc =>
      hallm c (List.drop_subset n Rm (by rw [hdrop]; exact hc))
    obtain ⟨c0, m0, hc0, hd0⟩ : ∃ c0 m0,
        a ++ '-' :: (b ++ (R ++ rest)) = c0 :: m0 ∧ isAsciiDigit c0 = false := by
      cases hga : a with
      | nil =>
        exact ⟨'-', b ++ (R ++ rest), by rw [List.nil_append], by decide⟩
      | cons a1 a2 =>
        refine ⟨a1, a2 ++ '-' :: (b ++ (R ++ rest)), by rw [List.cons_append], ?_⟩
        exact ws_not_digit (List.all_eq_true.mp ha a1
          (by rw [hga]; exact List.mem_cons_self _ _))
    by_cases h5 : 5 ≤ (y :: ys).length
    · exact tryYearRange_none_long_run _ _ hsub h5
    · cases ys with
      | nil =>
        rw [hc0]
        exact tryYearRange_none_of_take4 _
          (take4_all_false_append [y] m0 (by simp) hd0)
      | cons y2 ys2 =>
        cases ys2 with
        | nil =>
          rw [hc0]
          exact tryYearRange_none_of_take4 _
            (take4_all_false_append [y, y2] m0 (by simp) hd0)
        | cons y3 ys3 =>
          cases ys3 with
          | nil =>
            rw [hc0]
            exact tryYearRange_none_of_take4 _
              (take4_all_false_append [y, y2, y3] m0 (by simp) hd0)
          | cons y4 ys4 =>
            cases ys4 with
            | cons y5 ys5 =>
              exact absurd (show 5 ≤ (y :: y2 :: y3 :: y4 :: y5 :: ys5).length by
                simp only [List.length_cons]; omega) h5
            | nil =>
              rw [hdrop] at hlen
              simp only [List.length_cons, List.length_nil] at hlen
              cases hdig : ([y, y2, y3, y4].all isAsciiDigit) with
              | false =>
                apply tryYearRange_none_of_take4
                show ([y, y2, y3, y4]).all isAsciiDigit = false
                exact hdig
              | true =>
                have hlast : last4digits Rm = true := by
                  simp only [last4digits]
                  rw [decide_eq_true (show 4 ≤ Rm.length by omega),
                    show Rm.length - 4 = n by omega, hdrop]
                  simp only [Bool.true_and]
                  exact hdig
                rw [hlast, Bool.true_and] at hfire
                simp only [List.cons_append, List.nil_append]
                exact tryYearRange_none_boundary ha hb hR hfire hrest

/-- The year-range scan fires at a dash link whose flanking runs end and
begin with four digits. -/
theorem runRepl_year_run_fire (Rm a b R rest : List Char)
    (hallm : ∀ c ∈ Rm, isWordChar c = true)
    (ha : wsRun a = true) (hb : wsRun b = true)
    (hfire : (last4digits Rm && first4digits R) = true) :
    runRepl tryYearRange (Rm ++ (a ++ '-' :: (b ++ (R ++ rest)))) =
      Rm ++ (' ' :: '-' :: ' ' ::
        (R.take 4 ++ runRepl tryYearRange (R.drop 4 ++ rest))) := by
  simp only [Bool.and_eq_true] at hfire
  obtain ⟨hlast, hfirst⟩ := hfire
  simp only [last4digits, Bool.and_eq_true, decide_eq_true_eq] at hlast
  simp only [first4digits, Bool.and_eq_true, decide_eq_true_eq] at hfirst
  obtain ⟨h4m, hWall⟩ := hlast
  obtain ⟨h4R, hEall⟩ := hfirst
  have hZW : Rm.take (Rm.length - 4) ++ Rm.drop (Rm.length - 4) = Rm :=
    List.take_append_drop _ _
  have hW4 : (Rm.drop (Rm.length - 4)).length = 4 := by
    rw [List.length_drop]; omega
  obtain ⟨w1, w2, w3, w4, hW⟩ := exists_four _ hW4
  have hE4 : (R.take 4).length = 4 := by
    rw [List.length_take]; omega
  obtain ⟨e1, e2, e3, e4, hE⟩ := exists_four _ hE4
  have hwd : ∀ c ∈ [w1, w2, w3, w4], isAsciiDigit c = true := by
    rw [← hW]; exact List.all_eq_true.mp hWall
  have hed : ∀ c ∈ [e1, e2, e3, e4], isAsciiDigit c = true := by
    rw [← hE]; exact List.all_eq_true.mp hEall
  have hguardW : (isAsciiDigit w1 && isAsciiDigit w2 && isAsciiDigit w3 &&
      isAsciiDigit w4) = true := by
    rw [hwd w1 (by simp), hwd w2 (by simp), hwd w3 (by simp), hwd w4 (by simp)]
    rfl
  have hguardE : (isAsciiDigit e1 && isAsciiDigit e2 && isAsciiDigit e3 &&
      isAsciiDigit e4) = true := by
    rw [hed e1 (by simp), hed e2 (by simp), hed e3 (by simp), hed e4 (by simp)]
    rfl
  have hRE : R = e1 :: e2 :: e3 :: e4 :: R.drop 4 := by
    conv_lhs => rw [← List.take_append_drop 4 R, hE]
    rfl
  conv_lhs => rw [← hZW, hW, List.append_assoc]
  have hwalk : runRepl tryYearRange (Rm.take (Rm.length - 4) ++
        ((w1 :: w2 :: w3 :: w4 :: []) ++ (a ++ '-' :: (b ++ (R ++ rest))))) =
      Rm.take (Rm.length - 4) ++ runRepl tryYearRange
        ((w1 :: w2 :: w3 :: w4 :: []) ++ (a ++ '-' :: (b ++ (R ++ rest)))) := by
    apply runRepl_append_none _ tryYearRange_tame.shrinks
    intro n hn
    have hlen := List.length_drop n (Rm.take (Rm.length - 4))
    cases hdropZ : (Rm.take (Rm.length - 4)).drop n with
    | nil =>
      rw [hdropZ] at hlen
      simp only [List.length_nil] at hlen
      omega
    | cons z zs =>
      rw [← List.append_assoc]
      apply tryYearRange_none_long_run ((z :: zs) ++ (w1 :: w2 :: w3 :: w4 :: []))
      · intro c hc
        rcases List.mem_append.mp hc with h1 | h1
        · exact hallm c (List.take_subset _ _ (List.drop_subset _ _
            (by rw [hdropZ]; exact h1)))
        · exact digit_word (hwd c h1)
      · simp only [List.length_append, List.length_cons, List.length_nil]
        omega
  rw [hwalk]
  simp only [List.cons_append, List.nil_append]
  rw [runRepl_cons _ tryYearRange_tame.shrinks]
  have hcshape : a ++ '-' :: (b ++ (R ++ rest)) =
      a ++ '-' :: (b ++ (e1 :: e2 :: e3 :: e4 :: (R.drop 4 ++ rest))) := by
    conv_lhs => rw [hRE]
    simp [List.cons_append, List.append_assoc]
  rw [hcshape, tryYearRange_fire hguardW hguardE ha hb]
  simp only
  conv_rhs => rw [← hZW, hW, hE]
  simp [List.append_assoc]

/-- One pass of the year-range scan over the links of an island: `prevR`
is the word run before the first link and `sp` records whether a previous
match consumed that run's first four characters. -/
theorem Y_gaps : ∀ (gs : List IGap) (prevR : List Char) (sp : Bool)
    (k : List Char),
    wordRun prevR = true → gs.all wfGap = true → noChain k = true →
    headIsWord k = false →
    runRepl tryYearRange
        (prevR.drop (if sp then 4 else 0) ++ (interpGaps gs ++ k)) =
      prevR.drop (if sp then 4 else 0) ++
        (interpGaps (islYGaps prevR sp gs) ++ runRepl tryYearRange k) := by
  intro gs
  induction gs with
  | nil =>
    intro prevR sp k hR _ hk hkh
    simp only [interpGaps, islYGaps, List.nil_append]
    exact runRepl_year_wordrun _ k
      (fun c hc => wordRun_all hR c (List.drop_subset _ _ hc)) hk hkh
  | cons g gs' ih =>
    intro prevR sp k hR hgs hk hkh
    have hg2 : wfGap g = true := by
      simp only [List.all_cons, Bool.and_eq_true] at hgs; exact hgs.1
    have hgs' : gs'.all wfGap = true := by
      simp only [List.all_cons, Bool.and_eq_true] at hgs; exact hgs.2
    have hwf := hg2
    simp only [wfGap, Bool.and_eq_true] at hwf
    obtain ⟨⟨ha, hb⟩, hgR⟩ := hwf
    have hallm : ∀ c ∈ prevR.drop (if sp then 4 else 0), isWordChar c = true :=
      fun c hc => wordRun_all hR c (List.drop_subset _ _ hc)
    have hnextd : ∀ c, (interpGaps gs' ++ k).head? = some c →
        isAsciiDigit c = false := by
      intro c hc
      cases gs' with
      | nil =>
        rw [show interpGaps [] = [] from rfl, List.nil_append] at hc
        cases k with
        | nil => exact Option.noConfusion hc
        | cons c1 k1 =>
          rw [List.head?_cons] at hc
          injection hc with h
          rw [← h]
          have hc1 : isWordChar c1 = false := hkh
          cases hx : isAsciiDigit c1 with
          | false => rfl
          | true => rw [digit_word hx] at hc1; cases hc1
      | cons g2 gs2 =>
        have hg2w : wfGap g2 = true := by
          simp only [List.all_cons, Bool.and_eq_true] at hgs'; exact hgs'.1
        simp only [wfGap, Bool.and_eq_true] at hg2w
        obtain ⟨⟨ha2, _⟩, _⟩ := hg2w
        rw [show interpGaps (g2 :: gs2) =
          g2.a ++ '-' :: (g2.b ++ (g2.R ++ interpGaps gs2)) from rfl] at hc
        cases hga2 : g2.a with
        | nil =>
          rw [hga2, List.nil_append, List.cons_append, List.head?_cons] at hc
          injection hc with h
          rw [← h]; decide
        | cons a1 a2 =>
          rw [hga2] at hc
          simp only [List.cons_append, List.head?_cons] at hc
          injection hc with h
          rw [← h]
          exact ws_not_digit (List.all_eq_true.mp ha2 a1
            (by rw [hga2]; exact List.mem_cons_self _ _))
    have hsig : (last4digits (prevR.drop (if sp then 4 else 0)) &&
        first4digits g.R) =
        (last4digits prevR && first4digits g.R &&
          (!sp || decide (8 ≤ prevR.length))) := by
      cases sp with
      | false =>
        show (last4digits (prevR.drop 0) && first4digits g.R) = _
        rw [List.drop_zero]
        cases hp : last4digits prevR <;> cases hq : first4digits g.R <;> rfl
      | true =>
        show (last4digits (prevR.drop 4) && first4digits g.R) = _
        rw [last4digits_drop4]
        cases hp : last4digits prevR <;> cases hq : first4digits g.R <;>
          cases hr : decide (8 ≤ prevR.length) <;> rfl
    have hunf : islYGaps prevR sp (g :: gs') =
        (if (last4digits prevR && first4digits g.R &&
            (!sp || decide (8 ≤ prevR.length))) then
          (⟨[' '], [' '], g.R⟩ : IGap) else g) ::
          islYGaps g.R (last4digits prevR && first4digits g.R &&
            (!sp || decide (8 ≤ prevR.length))) gs' := rfl
    rw [hunf, ← hsig]
    have hshape2 : interpGaps (g :: gs') ++ k =
        g.a ++ '-' :: (g.b ++ (g.R ++ (interpGaps gs' ++ k))) := by
      simp [interpGaps, List.append_assoc]
    cases hfire : (last4digits (prevR.drop (if sp then 4 else 0)) &&
        first4digits g.R) with
    | false =>
      rw [if_neg Bool.false_ne_true, hshape2]
      rw [runRepl_year_run_gap _ g.a g.b g.R (interpGaps gs' ++ k) hallm
        ha hb hgR hfire hnextd]
      have hshape3 : g.a ++ '-' :: (g.b ++ (g.R ++ (interpGaps gs' ++ k))) =
          (g.a ++ '-' :: g.b) ++ (g.R ++ (interpGaps gs' ++ k)) := by
        simp [List.append_assoc]
      rw [hshape3]
      rw [runRepl_year_nondigit _ _ (by
        intro c hc
        rcases List.mem_append.mp hc with h1 | h1
        · exact ws_not_digit (List.all_eq_true.mp ha c h1)
        · rcases List.mem_cons.mp h1 with hceq | h2
          · subst hceq; decide
          · exact ws_not_digit (List.all_eq_true.mp hb c h2))]
      have ih0 : runRepl tryYearRange (g.R ++ (interpGaps gs' ++ k)) =
          g.R ++ (interpGaps (islYGaps g.R false gs') ++
            runRepl tryYearRange k) := ih g.R false k hgR hgs' hk hkh
      rw [ih0]
      simp [interpGaps, List.append_assoc]
    | true =>
      rw [if_pos rfl, hshape2]
      rw [runRepl_year_run_fire _ g.a g.b g.R (interpGaps gs' ++ k) hallm
        ha hb hfire]
      have ih1 : runRepl tryYearRange (g.R.drop 4 ++ (interpGaps gs' ++ k)) =
          g.R.drop 4 ++ (interpGaps (islYGaps g.R true gs') ++
            runRepl tryYearRange k) := ih g.R true k hgR hgs' hk hkh
      rw [ih1]
      have hTD : g.R.take 4 ++ (g.R.drop 4 ++
            (interpGaps (islYGaps g.R true gs') ++ runRepl tryYearRange k)) =
          g.R ++ (interpGaps (islYGaps g.R true gs') ++
            runRepl tryYearRange k) := by
        rw [← List.append_assoc, List.take_append_drop]
      rw [hTD]
      simp [interpGaps, List.append_assoc]

/-- The year-range rule acts on a well-formed decomposition by
transforming each island with `islY` and leaving fillers unchanged. -/
theorem Y_interpRep : ∀ (ps : List Piece), wfRep ps = true →
    replaceYearRange (interpRep ps) = interpRep (mapIslRep islY ps) := by
  intro ps
  induction ps with
  | nil => intro _; rfl
  | cons p ps' ih =>
    intro hwf
    cases p with
    | inl f =>
      simp only [wfRep, Bool.and_eq_true] at hwf
      simp only [interpRep, mapIslRep]
      rw [show replaceYearRange (f ++ interpRep ps') =
          runRepl tryYearRange (f ++ interpRep ps') from rfl]
      rw [runRepl_year_nondigit f _ (by
        intro c hc
        have h1 := List.all_eq_true.mp hwf.1 c hc
        have h2 : isWordChar c = false := by simpa using h1
        cases hx : isAsciiDigit c with
        | false => rfl
        | true => rw [digit_word hx] at h2; cases h2)]
      have ih' : runRepl tryYearRange (interpRep ps') =
          interpRep (mapIslRep islY ps') := ih hwf.2
      rw [ih']
    | inr i =>
      simp only [wfRep, Bool.and_eq_true] at hwf
      obtain ⟨⟨⟨hisl, hnc⟩, hnw⟩, hps'⟩ := hwf
      simp only [wfIsl, Bool.and_eq_true] at hisl
      simp only [interpRep, mapIslRep, interpIsl, islY]
      rw [show replaceYearRange (i.R0 ++ interpGaps i.gaps ++ interpRep ps') =
          runRepl tryYearRange (i.R0 ++ (interpGaps i.gaps ++ interpRep ps')) by
        simp [replaceYearRange, List.append_assoc]]
      have hYG : runRepl tryYearRange
            (i.R0 ++ (interpGaps i.gaps ++ interpRep ps')) =
          i.R0 ++ (interpGaps (islYGaps i.R0 false i.gaps) ++
            runRepl tryYearRange (interpRep ps')) := by
        have hb1 : (!headIsWord (interpRep ps')) = true := hnw
        have hb2 : headIsWord (interpRep ps') = false := by
          cases hx : headIsWord (interpRep ps') with
          | false => rfl
          | true => rw [hx] at hb1; cases hb1
        exact Y_gaps i.gaps i.R0 false (interpRep ps') hisl.1 hisl.2 hnc hb2
      rw [hYG]
      have ih' : runRepl tryYearRange (interpRep ps') =
          interpRep (mapIslRep islY ps') := ih hps'
      rw [ih']
      simp [List.append_assoc]

/-! ### Data-level idempotence of the combined dash and year-range action -/

theorem islWGaps_idem : ∀ (gs : List IGap) (tau : Bool) (p : List Char)
    (sp : Bool),
    islYGaps p sp (islDGaps tau (islYGaps p sp (islDGaps tau gs))) =
      islYGaps p sp (islDGaps tau gs) := by
  intro gs
  induction gs with
  | nil => intro tau p sp; rfl
  | cons g gs' ih =>
    intro tau p sp
    cases tau <;>
      cases hs : (last4digits p && first4digits g.R &&
        (!sp || decide (8 ≤ p.length))) <;>
      simp [islDGaps, islYGaps, hs, ih]

/-- Applying the dash and year-range pass twice to an island gives the
same result as applying it once. -/
theorem islW_idem (i : Island) : islW (islW i) = islW i := by
  simp only [islW, islY, islD]
  rw [islWGaps_idem]

theorem wfGaps_islDGaps : ∀ (gs : List IGap) (tau : Bool),
    gs.all wfGap = true → (islDGaps tau gs).all wfGap = true := by
  intro gs
  induction gs with
  | nil => intro tau _; rfl
  | cons g gs' ih =>
    intro tau hgs
    simp only [List.all_cons, Bool.and_eq_true] at hgs
    cases tau with
    | true =>
      simp only [islDGaps, List.all_cons, Bool.and_eq_true]
      refine ⟨?_, ih _ hgs.2⟩
      have hg := hgs.1
      simp only [wfGap, Bool.and_eq_true] at hg ⊢
      exact ⟨⟨rfl, rfl⟩, hg.2⟩
    | false =>
      simp only [islDGaps, List.all_cons, Bool.and_eq_true]
      exact ⟨hgs.1, ih _ hgs.2⟩

theorem wfGaps_islYGaps : ∀ (gs : List IGap) (p : List Char) (sp : Bool),
    gs.all wfGap = true → (islYGaps p sp gs).all wfGap = true := by
  intro gs
  induction gs with
  | nil => intro p sp _; rfl
  | cons g gs' ih =>
    intro p sp hgs
    simp only [List.all_cons, Bool.and_eq_true] at hgs
    cases hs : (last4digits p && first4digits g.R &&
        (!sp || decide (8 ≤ p.length))) with
    | true =>
      have hunf : islYGaps p sp (g :: gs') =
          (⟨[' '], [' '], g.R⟩ : IGap) :: islYGaps g.R true gs' := by
        simp [islYGaps, hs]
      rw [hunf]
      simp only [List.all_cons, Bool.and_eq_true]
      refine ⟨?_, ih _ _ hgs.2⟩
      have hg := hgs.1
      simp only [wfGap, Bool.and_eq_true] at hg ⊢
      exact ⟨⟨rfl, rfl⟩, hg.2⟩
    | false =>
      have hunf : islYGaps p sp (g :: gs') = g :: islYGaps g.R false gs' := by
        simp [islYGaps, hs]
      rw [hunf]
      simp only [List.all_cons, Bool.and_eq_true]
      exact ⟨hgs.1, ih _ _ hgs.2⟩

theorem wfIsl_islW {i : Island} (h : wfIsl i = true) : wfIsl (islW i) = true := by
  simp only [wfIsl, Bool.and_eq_true] at h ⊢
  exact ⟨h.1, wfGaps_islYGaps _ _ _ (wfGaps_islDGaps _ _ h.2)⟩

/-! ### Whitespace-skeleton characterization of the chain conditions -/

def noChainF : List Char → Bool
  | d :: rest => if d = '-' then !headIsWord rest else true
  | [] => true

theorem headIsWord_congr {l1 l2 : List Char} (h : l1.head? = l2.head?) :
    headIsWord l1 = headIsWord l2 := by
  cases l1 with
  | nil =>
    cases l2 with
    | nil => rfl
    | cons b t => simp at h
  | cons a s =>
    cases l2 with
    | nil => simp at h
    | cons b t =>
      simp only [List.head?_cons, Option.some.injEq] at h
      subst h
      rfl

theorem head?_dropWhile_filter (q : Char → Bool) :
    ∀ (l : List Char),
      (l.dropWhile q).head? = (l.filter (fun c => !q c)).head? := by
  intro l
  induction l with
  | nil => rfl
  | cons c cs ih =>
    rw [List.dropWhile_cons, List.filter_cons]
    cases hq : q c with
    | true =>
      rw [if_pos rfl, if_neg (by simp)]
      exact ih
    | false =>
      rw [if_neg (by simp), if_pos (show (!false) = true from rfl)]
      rfl

theorem filter_ws_nil {W : List Char}
    (hW : ∀ c ∈ W, isJsWhitespace c = true) :
    W.filter (fun c => !isJsWhitespace c) = [] := by
  induction W with
  | nil => rfl
  | cons w ws ih =>
    rw [List.filter_cons, if_neg (by simp [hW w (List.mem_cons_self _ _)])]
    exact ih (fun c hc => hW c (List.mem_cons_of_mem _ hc))

theorem filter_nonws_id {R : List Char}
    (hR : ∀ c ∈ R, isJsWhitespace c = false) :
    R.filter (fun c => !isJsWhitespace c) = R := by
  induction R with
  | nil => rfl
  | cons r rs ih =>
    rw [List.filter_cons, if_pos (by simp [hR r (List.mem_cons_self _ _)])]
    rw [ih (fun c hc => hR c (List.mem_cons_of_mem _ hc))]

theorem noChain_eq_filter : ∀ (X : List Char),
    noChain X = noChainF (X.filter (fun c => !isJsWhitespace c)) := by
  intro X
  cases hd : X.dropWhile isJsWhitespace with
  | nil =>
    have h1 : (X.filter (fun c => !isJsWhitespace c)).head? = none := by
      rw [← head?_dropWhile_filter, hd]; rfl
    have h2 : X.filter (fun c => !isJsWhitespace c) = [] := by
      cases hf : X.filter (fun c => !isJsWhitespace c) with
      | nil => rfl
      | cons a t => rw [hf, List.head?_cons] at h1; cases h1
    simp only [noChain, hd, h2, noChainF]
  | cons d r2 =>
    have hdns : isJsWhitespace d = false :=
      head_dropWhile_not_sat X (by rw [hd]; rfl)
    have hsplit : X.filter (fun c => !isJsWhitespace c) =
        d :: r2.filter (fun c => !isJsWhitespace c) := by
      conv_lhs => rw [← List.takeWhile_append_dropWhile isJsWhitespace X, hd]
      rw [List.filter_append,
        filter_ws_nil (fun c hc => mem_takeWhile_sat hc), List.nil_append,
        List.filter_cons, if_pos (by simp [hdns])]
    rw [show noChain X =
        (if d = '-' then !headIsWord (r2.dropWhile isJsWhitespace) else true)
      from by simp only [noChain, hd]]
    rw [hsplit]
    simp only [noChainF]
    by_cases hdash : d = '-'
    · rw [if_pos hdash, if_pos hdash]
      congr 1
      apply headIsWord_congr
      rw [head?_dropWhile_filter]
    · rw [if_neg hdash, if_neg hdash]

theorem noChain_congr_filter {X Y : List Char}
    (h : X.filter (fun c => !isJsWhitespace c) =
      Y.filter (fun c => !isJsWhitespace c)) : noChain X = noChain Y := by
  rw [noChain_eq_filter, noChain_eq_filter, h]

/-! ### The island maps only rearrange whitespace -/

def flatGaps : List IGap → List Char
  | [] => []
  | g :: gs => '-' :: (g.R ++ flatGaps gs)

theorem filter_interpGaps : ∀ (gs : List IGap), gs.all wfGap = true →
    (interpGaps gs).filter (fun c => !isJsWhitespace c) = flatGaps gs := by
  intro gs
  induction gs with
  | nil => intro _; rfl
  | cons g gs' ih =>
    intro hgs
    simp only [List.all_cons, Bool.and_eq_true] at hgs
    have hg := hgs.1
    simp only [wfGap, Bool.and_eq_true] at hg
    obtain ⟨⟨ha, hb⟩, hgR⟩ := hg
    show (g.a ++ '-' :: (g.b ++ (g.R ++ interpGaps gs'))).filter
        (fun c => !isJsWhitespace c) = '-' :: (g.R ++ flatGaps gs')
    rw [List.filter_append, filter_ws_nil (List.all_eq_true.mp ha),
      List.nil_append, List.filter_cons, if_pos (by decide),
      List.filter_append, filter_ws_nil (List.all_eq_true.mp hb),
      List.nil_append, List.filter_append,
      filter_nonws_id (fun c hc => word_not_ws (wordRun_all hgR c hc)),
      ih hgs.2]

theorem flatGaps_islDGaps : ∀ (gs : List IGap) (tau : Bool),
    flatGaps (islDGaps tau gs) = flatGaps gs := by
  intro gs
  induction gs with
  | nil => intro _; rfl
  | cons g gs' ih =>
    intro tau
    cases tau <;> simp [islDGaps, flatGaps, ih]

theorem flatGaps_islYGaps : ∀ (gs : List IGap) (p : List Char) (sp : Bool),
    flatGaps (islYGaps p sp gs) = flatGaps gs := by
  intro gs
  induction gs with
  | nil => intro _ _; rfl
  | cons g gs' ih =>
    intro p sp
    cases hs : (last4digits p && first4digits g.R &&
        (!sp || decide (8 ≤ p.length))) <;>
      simp [islYGaps, flatGaps, hs, ih]

theorem filter_interpIsl_islD {i : Island} (h : wfIsl i = true) :
    (interpIsl (islD i)).filter (fun c => !isJsWhitespace c) =
      (interpIsl i).filter (fun c => !isJsWhitespace c) := by
  simp only [wfIsl, Bool.and_eq_true] at h
  simp only [interpIsl, islD, List.filter_append]
  rw [filter_interpGaps _ (wfGaps_islDGaps _ _ h.2), filter_interpGaps _ h.2,
    flatGaps_islDGaps]

theorem filter_interpIsl_islY {i : Island} (h : wfIsl i = true) :
    (interpIsl (islY i)).filter (fun c => !isJsWhitespace c) =
      (interpIsl i).filter (fun c => !isJsWhitespace c) := by
  simp only [wfIsl, Bool.and_eq_true] at h
  simp only [interpIsl, islY, List.filter_append]
  rw [filter_interpGaps _ (wfGaps_islYGaps _ _ _ h.2), filter_interpGaps _ h.2,
    flatGaps_islYGaps]

theorem wfIsl_islD {i : Island} (h : wfIsl i = true) : wfIsl (islD i) = true := by
  simp only [wfIsl, Bool.and_eq_true] at h ⊢
  exact ⟨h.1, wfGaps_islDGaps _ _ h.2⟩

theorem wfIsl_islY {i : Island} (h : wfIsl i = true) : wfIsl (islY i) = true := by
  simp only [wfIsl, Bool.and_eq_true] at h ⊢
  exact ⟨h.1, wfGaps_islYGaps _ _ _ h.2⟩

theorem filter_interpIsl_islW {i : Island} (h : wfIsl i = true) :
    (interpIsl (islW i)).filter (fun c => !isJsWhitespace c) =
      (interpIsl i).filter (fun c => !isJsWhitespace c) := by
  rw [show islW i = islY (islD i) from rfl, filter_interpIsl_islY (wfIsl_islD h),
    filter_interpIsl_islD h]

/-! ### Well-formedness of a decomposition is stable under the island maps -/

theorem wfRep_mapIslRep (h : Island → Island)
    (hR0 : ∀ i, (h i).R0 = i.R0)
    (hwfp : ∀ i, wfIsl i = true → wfIsl (h i) = true)
    (hfil : ∀ i, wfIsl i = true →
      (interpIsl (h i)).filter (fun c => !isJsWhitespace c) =
        (interpIsl i).filter (fun c => !isJsWhitespace c)) :
    ∀ ps, wfRep ps = true →
      wfRep (mapIslRep h ps) = true ∧
      (interpRep (mapIslRep h ps)).filter (fun c => !isJsWhitespace c) =
        (interpRep ps).filter (fun c => !isJsWhitespace c) ∧
      headIsWord (interpRep (mapIslRep h ps)) = headIsWord (interpRep ps) := by
  intro ps
  induction ps with
  | nil => intro _; exact ⟨rfl, rfl, rfl⟩
  | cons p ps' ih =>
    intro hwf
    cases p with
    | inl f =>
      simp only [wfRep, Bool.and_eq_true] at hwf
      obtain ⟨ihwf, ihfil, ihhead⟩ := ih hwf.2
      refine ⟨?_, ?_, ?_⟩
      · simp only [mapIslRep, wfRep, Bool.and_eq_true]
        exact ⟨hwf.1, ihwf⟩
      · simp only [mapIslRep, interpRep, List.filter_append, ihfil]
      · simp only [mapIslRep, interpRep]
        cases f with
        | nil => simpa using ihhead
        | cons c cs => rfl
    | inr i =>
      simp only [wfRep, Bool.and_eq_true] at hwf
      obtain ⟨⟨⟨hisl, hnc⟩, hnw⟩, hps'⟩ := hwf
      obtain ⟨ihwf, ihfil, ihhead⟩ := ih hps'
      have hfili := hfil i hisl
      have hR0ne : i.R0 ≠ [] := by
        have h1 := hisl
        simp only [wfIsl, Bool.and_eq_true] at h1
        exact wordRun_ne_nil h1.1
      obtain ⟨r0, R0t, hR0e⟩ : ∃ r0 R0t, i.R0 = r0 :: R0t := by
        cases hc : i.R0 with
        | nil => exact absurd hc hR0ne
        | cons r0 R0t => exact ⟨r0, R0t, rfl⟩
      refine ⟨?_, ?_, ?_⟩
      · simp only [mapIslRep, wfRep, Bool.and_eq_true]
        refine ⟨⟨⟨hwfp i hisl, ?_⟩, ?_⟩, ihwf⟩
        · rw [noChain_congr_filter ihfil]
          exact hnc
        · rw [ihhead]
          exact hnw
      · simp only [mapIslRep, interpRep, List.filter_append, ihfil, hfili]
      · simp only [mapIslRep, interpRep, interpIsl, hR0 i, hR0e,
          List.cons_append]
        rfl

end TalentSift
